import Mathlib

/-!
Shallow embedding of the Go package `intset` (file `intset.go`), a bit-vector
set of non-negative integers, together with proofs of its specification.

Modelling conventions:
* The build is the 64-bit one: `intSize = wordSize = 64`, `lg2WordSize = 6`,
  `bitmask = 63`.
* Go `uint` words become `Nat`; well-formed sets (`Wf`) have every word
  `< 2 ^ 64`, which is what the Go type guarantees.
* Non-negative `int` element values become `Nat`.
* Methods that mutate the receiver become functions returning the new set;
  methods returning a `bool` and mutating return a pair.
* Go's `&^` (AND NOT) on words is `andNot` below, AND with the 64-bit
  complement, which agrees with it on all values below `2 ^ 64`.
-/

namespace Intset

/-- `intSize` from the source: 64 on a 64-bit platform. -/
def intSize : Nat := 64

/-- `MaxInt = 1<<(intSize-1) - 1`, the positive-infinity sentinel. -/
def MaxInt : Nat := 2 ^ (intSize - 1) - 1

/-- `MinInt = -MaxInt - 1`, the negative-infinity sentinel (used by `Max`). -/
def MinInt : Int := -(MaxInt : Int) - 1

/-- `wordSize`: bits per storage word (64 on a 64-bit platform). -/
def wordSize : Nat := 64

/-- `lg2WordSize = 4 + 1<<(^uint(0)>>63)` = 6 on a 64-bit platform. -/
def lg2WordSize : Nat := 6

/-- `bitmask = 1<<lg2WordSize - 1` = 63. -/
def bitmask : Nat := 2 ^ lg2WordSize - 1

/-- `wordMask` returns the word index and single-bit mask for bit `x`. -/
def wordMask (x : Nat) : Nat × Nat :=
  (x >>> lg2WordSize, 1 <<< (x &&& bitmask))

/-- `wordBit` returns the word index and bit index for bit `x`. -/
def wordBit (x : Nat) : Nat × Nat :=
  (x >>> lg2WordSize, x &&& bitmask)

/-- Go's `&^` (AND NOT) on 64-bit words, written with kernel-computable
operations: `a &^ b = a AND (b XOR 0xFFFFFFFFFFFFFFFF)`. -/
def andNot (a b : Nat) : Nat := a &&& (b ^^^ (2 ^ wordSize - 1))

/-- `IntSet` is a set of small non-negative int values, a growable word list. -/
structure IntSet where
  words : List Nat
deriving DecidableEq, Repr

/-- Well-formedness: every stored word fits in a 64-bit machine word.
Every Go value of the type satisfies this because words are `uint`. -/
abbrev Wf (s : IntSet) : Prop := ∀ w ∈ s.words, w < 2 ^ wordSize

/-- The zero value: the empty set. -/
def empty : IntSet := ⟨[]⟩

/-- Word at index `i`, with the implicit-zero convention for missing words. -/
def wordAt (s : IntSet) (i : Nat) : Nat := s.words.getD i 0

/-- `Has` reports whether the set contains `x`:
`w < len(s.words) && s.words[w]&mask != 0`. -/
def has (s : IntSet) (x : Nat) : Bool :=
  let (w, mask) := wordMask x
  decide (w < s.words.length) && decide (s.words.getD w 0 &&& mask ≠ 0)

/-- One `append 0` per iteration of the growth loop of `Add`;
the iteration count is passed as fuel to keep the recursion structural. -/
def growAux : Nat → List Nat → List Nat
  | 0, ws => ws
  | fuel + 1, ws => growAux fuel (ws ++ [0])

/-- The growth loop of `Add`: `for len(s.words) <= w { append 0 }` runs
exactly `w + 1 - len(s.words)` times. -/
def growTo (ws : List Nat) (w : Nat) : List Nat :=
  growAux (w + 1 - ws.length) ws

/-- `Add` adds `x` and reports whether the set grew. -/
def add (s : IntSet) (x : Nat) : Bool × IntSet :=
  let (w, mask) := wordMask x
  if w < s.words.length ∧ s.words.getD w 0 &&& mask ≠ 0 then (false, s)
  else
    let ws := growTo s.words w
    (true, ⟨ws.set w (ws.getD w 0 ||| mask)⟩)

/-- `AddAll` adds a group of values by repeated `Add`. -/
def addAll (s : IntSet) (xs : List Nat) : IntSet :=
  xs.foldl (fun t x => (add t x).2) s

/-- `Remove` removes `x` and reports whether the set shrank.
`s.words[w] &^= mask` clears the bit. -/
def remove (s : IntSet) (x : Nat) : Bool × IntSet :=
  let (w, mask) := wordMask x
  if s.words.length ≤ w ∨ s.words.getD w 0 &&& mask = 0 then (false, s)
  else (true, ⟨s.words.set w (andNot (s.words.getD w 0) mask)⟩)

/-- Models `math/bits.OnesCount` on a 64-bit word: the number of set bits. -/
def popcount (w : Nat) : Nat :=
  ((List.range wordSize).filter (fun j => w.testBit j)).length

/-- `Len`: sum of popcounts, skipping zero words as the source loop does. -/
def lenSet (s : IntSet) : Nat :=
  s.words.foldl (fun n w => if w = 0 then n else n + popcount w) 0

/-- `IsEmpty`: true iff every word is zero. -/
def isEmpty (s : IntSet) : Bool :=
  s.words.all (fun w => w == 0)

/-- The elements contributed by word `w` at word index `i`, in bit order:
the inner loop of `forEach` (`for j := 0; j < wordSize; j++`). -/
def wordElems (i w : Nat) : List Nat :=
  ((List.range wordSize).filter (fun j => w &&& (1 <<< j) != 0)).map
    (fun j => wordSize * i + j)

/-- The outer loop of `forEach`, collecting elements in order; zero words
are skipped (`continue`). -/
def elemsFrom : List Nat → Nat → List Nat
  | [], _ => []
  | w :: ws, i => (if w = 0 then [] else wordElems i w) ++ elemsFrom ws (i + 1)

/-- `Elems`/`forEach` enumeration order: all elements, ascending. -/
def elems (s : IntSet) : List Nat := elemsFrom s.words 0

/-- `AppendTo`: append the elements of `s` to `slice` in `forEach` order. -/
def appendTo (s : IntSet) (slice : List Nat) : List Nat := slice ++ elems s

/-- Upward scan for the lowest set bit starting at `j`, with fuel. -/
def ntzScan (w : Nat) : Nat → Nat → Nat
  | 0, j => j
  | fuel + 1, j => if w.testBit j then j else ntzScan w fuel (j + 1)

/-- Models `math/bits.TrailingZeros` on a 64-bit word: index of the
lowest set bit, `wordSize` for the zero word. -/
def ntz (w : Nat) : Nat := ntzScan w wordSize 0

/-- Downward scan for the highest set bit below `n`. -/
def bitLenScan (w : Nat) : Nat → Nat
  | 0 => 0
  | j + 1 => if w.testBit j then j + 1 else bitLenScan w j

/-- Models `math/bits.Len` on a 64-bit word: the number of bits needed to
represent `w`, i.e. one plus the index of the highest set bit, 0 for 0. -/
def bitLen (w : Nat) : Nat := bitLenScan w wordSize

/-- Models `math/bits.LeadingZeros`: `wordSize - bits.Len(w)`. -/
def nlz (w : Nat) : Nat := wordSize - bitLen w

/-- The loop of `TakeMin`: find the first non-zero word, clear its lowest
bit, return the corresponding element and the updated word list. -/
def takeMinWords : List Nat → Nat → Option (Nat × List Nat)
  | [], _ => none
  | w :: ws, i =>
    if w = 0 then
      match takeMinWords ws (i + 1) with
      | none => none
      | some (x, ws') => some (x, w :: ws')
    else some (wordSize * i + ntz w, andNot w (1 <<< ntz w) :: ws)

/-- `TakeMin`: pops the minimum into `*p`; `(returned bool, *p, new set)`. -/
def takeMin (s : IntSet) (p : Nat) : Bool × Nat × IntSet :=
  match takeMinWords s.words 0 with
  | none => (false, p, s)
  | some (m, ws) => (true, m, ⟨ws⟩)

/-- `Clear`: drop all words. -/
def clear (_s : IntSet) : IntSet := ⟨[]⟩

/-- Repeatedly `TakeMin` with the given amount of fuel, collecting the
popped elements (the worklist-draining loop of the spec). -/
def drain : Nat → IntSet → List Nat × IntSet
  | 0, s => ([], s)
  | fuel + 1, s =>
    match takeMinWords s.words 0 with
    | none => ([], s)
    | some (m, ws) =>
      let r := drain fuel ⟨ws⟩
      (m :: r.1, r.2)

/-- The loop of `Max`, scanning words from index `i - 1` down to 0. -/
def maxAux (ws : List Nat) : Nat → Int
  | 0 => MinInt
  | i + 1 =>
    if ws.getD i 0 = 0 then maxAux ws i
    else ((wordSize * (i + 1) - nlz (ws.getD i 0) - 1 : Nat) : Int)

/-- `Max`: the maximum element, or `MinInt` if the set is empty. -/
def maxE (s : IntSet) : Int := maxAux s.words s.words.length

/-- The inner scan of `LowerBound` (`for j := bit; j < wordSize; j++`),
with the remaining iteration count passed as fuel. -/
def scanBits (word : Nat) : Nat → Nat → Option Nat
  | 0, _ => none
  | fuel + 1, j =>
    if word &&& (1 <<< j) != 0 then some j
    else scanBits word fuel (j + 1)

/-- The word loop of `LowerBound`. -/
def lbWords (w bitp : Nat) : List Nat → Nat → Nat
  | [], _ => MaxInt
  | word :: ws, i =>
    if i < w then lbWords w bitp ws (i + 1)
    else if word = 0 then lbWords w bitp ws (i + 1)
    else if w < i then wordSize * i + ntz word
    else if bitp ≤ ntz word then wordSize * i + ntz word
    else
      match scanBits word (wordSize - bitp) bitp with
      | some j => wordSize * i + j
      | none => lbWords w bitp ws (i + 1)

/-- `LowerBound`: the smallest element `≥ x`, or `MaxInt` if none. -/
def lowerBound (s : IntSet) (x : Nat) : Nat :=
  let (w, bitp) := wordBit x
  lbWords w bitp s.words 0

/-- The loop of `UnionWith` over `t`'s words: or into existing receiver
words, append the words beyond the receiver's length verbatim. -/
def unionWords : List Nat → List Nat → List Nat
  | sws, [] => sws
  | [], tw :: tws => tw :: unionWords [] tws
  | sw :: sws, tw :: tws => (sw ||| tw) :: unionWords sws tws

/-- `UnionWith`: set `s` to `s ∪ t`. -/
def unionWith (s t : IntSet) : IntSet := ⟨unionWords s.words t.words⟩

/-- The loop of `DifferenceWith` over `t`'s words: `s.words[i] &^= tword`
for overlapping indices, the receiver's tail untouched. -/
def diffWords : List Nat → List Nat → List Nat
  | sws, [] => sws
  | [], _ :: _ => []
  | sw :: sws, tw :: tws => andNot sw tw :: diffWords sws tws

/-- `DifferenceWith`: set `s` to `s ∖ t`; `sameRef` models the `s == t`
pointer-identity test, which short-circuits to `Clear`. -/
def differenceWith (sameRef : Bool) (s t : IntSet) : IntSet :=
  if sameRef then clear s else ⟨diffWords s.words t.words⟩

/-- The loop of `Equals` over the receiver's words, index-carried. -/
def eqWords (tws : List Nat) : List Nat → Nat → Bool
  | [], _ => true
  | w :: ws, i =>
    if w = 0 then eqWords tws ws (i + 1)
    else if tws.length ≤ i then false
    else if w ≠ tws.getD i 0 then false
    else eqWords tws ws (i + 1)

/-- `Equals`: same elements test, as the source computes it (length check
then word-wise loop). The `s == t` pointer shortcut returns the same
answer, as proved below. -/
def equalsFn (s t : IntSet) : Bool :=
  if lenSet s ≠ lenSet t then false else eqWords t.words s.words 0

/-- The spec's own characterization of `Equals`: `Len()` matches and every
word-wise comparison over the receiver's allocated range matches, treating
`t`'s missing trailing words as zero. -/
def equalsSpecFn (s t : IntSet) : Bool :=
  (lenSet s == lenSet t) &&
    decide (∀ i < s.words.length, s.words.getD i 0 = t.words.getD i 0)

/-- The loop of `SubsetOf` over the receiver's words. -/
def subsetWords (tws : List Nat) : List Nat → Nat → Bool
  | [], _ => true
  | w :: ws, i =>
    if w = 0 then subsetWords tws ws (i + 1)
    else if tws.length ≤ i then false
    else if andNot w (tws.getD i 0) ≠ 0 then false
    else subsetWords tws ws (i + 1)

/-- `SubsetOf`: reports whether `s ∖ t = ∅`. -/
def subsetOf (s t : IntSet) : Bool := subsetWords t.words s.words 0

/-- `BitString`: most-significant bit first; `'1'` written at index
`radix - x - 1` for each element `x`, over a buffer of `Max()+1` zeros. -/
def bitString (s : IntSet) : List Char :=
  if isEmpty s then ['0']
  else
    let n := (maxE s).toNat + 1
    (elems s).foldl (fun b x => b.set (n - x - 1) '1') (List.replicate n '0')

/-- `Has` with every slice access through fallible indexing: the guard
`w < len(s.words)` precedes the access, as in the source. -/
def hasChecked (s : IntSet) (x : Nat) : Option Bool :=
  let (w, mask) := wordMask x
  if w < s.words.length then
    match s.words[w]? with
    | none => none
    | some word => some (decide (word &&& mask ≠ 0))
  else some false

/-- `Add` with every slice access through fallible indexing. -/
def addChecked (s : IntSet) (x : Nat) : Option (Bool × IntSet) :=
  let (w, mask) := wordMask x
  let pre : Option Bool :=
    if w < s.words.length then
      match s.words[w]? with
      | none => none
      | some word => some (decide (word &&& mask ≠ 0))
    else some false
  match pre with
  | none => none
  | some true => some (false, s)
  | some false =>
    let ws := growTo s.words w
    match ws[w]? with
    | none => none
    | some word => some (true, ⟨ws.set w (word ||| mask)⟩)

/-- `Remove` with every slice access through fallible indexing. -/
def removeChecked (s : IntSet) (x : Nat) : Option (Bool × IntSet) :=
  let (w, mask) := wordMask x
  if s.words.length ≤ w then some (false, s)
  else
    match s.words[w]? with
    | none => none
    | some word =>
      if word &&& mask = 0 then some (false, s)
      else some (true, ⟨s.words.set w (andNot word mask)⟩)

/-! ### Basic bit-level lemmas -/

theorem and_bitmask (x : Nat) : x &&& bitmask = x % 64 := by
  have hb : bitmask = 2 ^ 6 - 1 := rfl
  have h64 : (64 : Nat) = 2 ^ 6 := rfl
  apply Nat.eq_of_testBit_eq
  intro j
  rw [Nat.testBit_land, hb, Nat.testBit_two_pow_sub_one, h64, Nat.testBit_mod_two_pow,
    Bool.and_comm]

theorem shiftRight_lg2 (x : Nat) : x >>> lg2WordSize = x / 64 := by
  have h64 : (64 : Nat) = 2 ^ 6 := rfl
  rw [h64, ← Nat.shiftRight_eq_div_pow]
  rfl

theorem land_mask_ne_zero (w j : Nat) : (w &&& 1 <<< j ≠ 0) ↔ w.testBit j = true := by
  rw [Nat.one_shiftLeft, Nat.and_two_pow]
  cases h : w.testBit j
  · simp
  · simp only [Bool.toNat_true, one_mul]
    have := Nat.two_pow_pos j
    exact ⟨fun _ => trivial, fun _ => by omega⟩

theorem testBit_andNot_lt {a b : Nat} {j : Nat} (hj : j < 64) :
    (andNot a b).testBit j = (a.testBit j && !b.testBit j) := by
  unfold andNot
  have hws : wordSize = 64 := rfl
  rw [Nat.testBit_land, Nat.testBit_xor, hws, Nat.testBit_two_pow_sub_one,
    decide_eq_true hj]
  cases a.testBit j <;> cases b.testBit j <;> rfl

theorem andNot_lt {a b : Nat} (hb : b < 2 ^ 64) : andNot a b < 2 ^ 64 := by
  unfold andNot
  have hm : (2 : Nat) ^ wordSize - 1 < 2 ^ 64 := by
    have hws : wordSize = 64 := rfl
    rw [hws]
    have := Nat.two_pow_pos 64
    omega
  exact Nat.and_lt_two_pow a (Nat.xor_lt_two_pow hb hm)

theorem getD_oob {l : List Nat} {i : Nat} (h : l.length ≤ i) : l.getD i 0 = 0 := by
  simp [List.getD_eq_getElem?_getD, List.getElem?_eq_none h]

/-- Membership as a pure bit test: the implicit-zero convention makes the
length guard invisible. -/
theorem has_eq_testBit (s : IntSet) (x : Nat) :
    has s x = (wordAt s (x / 64)).testBit (x % 64) := by
  unfold has wordMask wordAt
  simp only [shiftRight_lg2, and_bitmask]
  by_cases h : x / 64 < s.words.length
  · rw [decide_eq_true h, Bool.true_and]
    cases hb : (s.words.getD (x / 64) 0).testBit (x % 64)
    · exact decide_eq_false fun hc => by
        rw [(land_mask_ne_zero _ _).mp hc] at hb
        cases hb
    · exact decide_eq_true ((land_mask_ne_zero _ _).mpr hb)
  · have hl : s.words.length ≤ x / 64 := Nat.le_of_not_lt h
    rw [decide_eq_false h, Bool.false_and, getD_oob hl, Nat.zero_testBit]

theorem has_iff_testBit (s : IntSet) (x : Nat) :
    has s x = true ↔ (wordAt s (x / 64)).testBit (x % 64) = true := by
  rw [has_eq_testBit]

/-! ### Growth -/

theorem growAux_eq : ∀ (fuel : Nat) (ws : List Nat),
    growAux fuel ws = ws ++ List.replicate fuel 0 := by
  intro fuel
  induction fuel with
  | zero => intro ws; simp [growAux]
  | succ fuel ih =>
    intro ws
    rw [growAux, ih, List.append_assoc]
    simp [List.replicate_succ]

theorem growTo_eq (ws : List Nat) (w : Nat) :
    growTo ws w = ws ++ List.replicate (w + 1 - ws.length) 0 :=
  growAux_eq _ ws

theorem length_growTo (ws : List Nat) (w : Nat) :
    (growTo ws w).length = max ws.length (w + 1) := by
  rw [growTo_eq]
  simp only [List.length_append, List.length_replicate]
  omega

theorem getD_growTo (ws : List Nat) (w i : Nat) :
    (growTo ws w).getD i 0 = ws.getD i 0 := by
  rw [growTo_eq]
  by_cases h : i < ws.length
  · simp [List.getD_eq_getElem?_getD, List.getElem?_append_left h]
  · have h1 : ws.length ≤ i := Nat.le_of_not_lt h
    rw [getD_oob h1, List.getD_eq_getElem?_getD, List.getElem?_append_right h1,
      List.getElem?_replicate]
    by_cases h3 : i - ws.length < w + 1 - ws.length
    · simp [h3]
    · simp [h3]

theorem getD_set_self {α : Type} {l : List α} {i : Nat} (h : i < l.length) (a : α)
    {d : α} : (l.set i a).getD i d = a := by
  simp [List.getD_eq_getElem?_getD, List.getElem?_set_self h]

theorem getD_set_ne {α : Type} {l : List α} {i j : Nat} (h : i ≠ j) (a : α) {d : α} :
    (l.set i a).getD j d = l.getD j d := by
  simp [List.getD_eq_getElem?_getD, List.getElem?_set_ne h]

/-! ### `Add` and `Remove` behaviour -/

theorem has_self_of_cond {s : IntSet} {x : Nat}
    (h : x / 64 < s.words.length ∧ s.words.getD (x / 64) 0 &&& 1 <<< (x % 64) ≠ 0) :
    has s x = true := by
  unfold has wordMask
  simp only [shiftRight_lg2, and_bitmask]
  rw [decide_eq_true h.1, decide_eq_true h.2]
  rfl

theorem cond_of_has {s : IntSet} {x : Nat} (h : has s x = true) :
    x / 64 < s.words.length ∧ s.words.getD (x / 64) 0 &&& 1 <<< (x % 64) ≠ 0 := by
  unfold has wordMask at h
  simp only [shiftRight_lg2, and_bitmask, Bool.and_eq_true, decide_eq_true_eq] at h
  exact h

theorem add_eq_branches (s : IntSet) (x : Nat) :
    add s x =
      if x / 64 < s.words.length ∧ s.words.getD (x / 64) 0 &&& 1 <<< (x % 64) ≠ 0 then
        (false, s)
      else
        (true, ⟨(growTo s.words (x / 64)).set (x / 64)
          ((growTo s.words (x / 64)).getD (x / 64) 0 ||| 1 <<< (x % 64))⟩) := by
  unfold add wordMask
  simp only [shiftRight_lg2, and_bitmask]

theorem add_fst (s : IntSet) (x : Nat) : (add s x).1 = !has s x := by
  rw [add_eq_branches]
  by_cases h : x / 64 < s.words.length ∧ s.words.getD (x / 64) 0 &&& 1 <<< (x % 64) ≠ 0
  · rw [if_pos h, has_self_of_cond h]
    rfl
  · rw [if_neg h]
    cases hh : has s x
    · rfl
    · exact absurd (cond_of_has hh) h

theorem div_mod_eq_iff {x y : Nat} (hdiv : y / 64 = x / 64) : x % 64 = y % 64 ↔ y = x := by
  omega

theorem has_add (s : IntSet) (x y : Nat) :
    has (add s x).2 y = (has s y || decide (y = x)) := by
  rw [add_eq_branches]
  by_cases h : x / 64 < s.words.length ∧ s.words.getD (x / 64) 0 &&& 1 <<< (x % 64) ≠ 0
  · rw [if_pos h]
    by_cases hxy : y = x
    · subst hxy
      simp [has_self_of_cond h]
    · simp [hxy]
  · rw [if_neg h]
    have hwlt : x / 64 < (growTo s.words (x / 64)).length := by
      rw [length_growTo]; omega
    rw [has_eq_testBit, has_eq_testBit]
    unfold wordAt
    show (((growTo s.words (x / 64)).set (x / 64)
        ((growTo s.words (x / 64)).getD (x / 64) 0 ||| 1 <<< (x % 64))).getD
        (y / 64) 0).testBit (y % 64) = _
    by_cases hdiv : y / 64 = x / 64
    · rw [hdiv, getD_set_self hwlt, getD_growTo, Nat.one_shiftLeft, Nat.testBit_lor,
        Nat.testBit_two_pow]
      congr 1
      simp only [decide_eq_decide]
      exact div_mod_eq_iff hdiv
    · rw [getD_set_ne (fun hh => hdiv hh.symm), getD_growTo]
      have hxy : y ≠ x := fun hh => hdiv (by rw [hh])
      simp [hxy]

theorem remove_eq_branches (s : IntSet) (x : Nat) :
    remove s x =
      if s.words.length ≤ x / 64 ∨ s.words.getD (x / 64) 0 &&& 1 <<< (x % 64) = 0 then
        (false, s)
      else
        (true, ⟨s.words.set (x / 64)
          (andNot (s.words.getD (x / 64) 0) (1 <<< (x % 64)))⟩) := by
  unfold remove wordMask
  simp only [shiftRight_lg2, and_bitmask]

theorem remove_fst (s : IntSet) (x : Nat) : (remove s x).1 = has s x := by
  rw [remove_eq_branches]
  by_cases h : s.words.length ≤ x / 64 ∨ s.words.getD (x / 64) 0 &&& 1 <<< (x % 64) = 0
  · rw [if_pos h]
    cases hh : has s x
    · rfl
    · exfalso
      have hc := cond_of_has hh
      rcases h with h | h
      · exact absurd hc.1 (Nat.not_lt.mpr h)
      · exact hc.2 h
  · rw [if_neg h]
    push_neg at h
    exact (has_self_of_cond ⟨h.1, h.2⟩).symm

theorem has_remove (s : IntSet) (x y : Nat) :
    has (remove s x).2 y = (has s y && !decide (y = x)) := by
  rw [remove_eq_branches]
  by_cases h : s.words.length ≤ x / 64 ∨ s.words.getD (x / 64) 0 &&& 1 <<< (x % 64) = 0
  · rw [if_pos h]
    by_cases hxy : y = x
    · subst hxy
      have hf : has s y = false := by
        cases hh : has s y
        · rfl
        · have hc := cond_of_has hh
          rcases h with h | h
          · omega
          · exact absurd h hc.2
      simp [hf]
    · simp [hxy]
  · rw [if_neg h]
    push_neg at h
    have hwlt : x / 64 < s.words.length := h.1
    rw [has_eq_testBit, has_eq_testBit]
    unfold wordAt
    show ((s.words.set (x / 64)
        (andNot (s.words.getD (x / 64) 0) (1 <<< (x % 64)))).getD
        (y / 64) 0).testBit (y % 64) = _
    by_cases hdiv : y / 64 = x / 64
    · rw [hdiv, getD_set_self hwlt, testBit_andNot_lt (by omega), Nat.one_shiftLeft,
        Nat.testBit_two_pow]
      congr 1
      simp only [Bool.not_inj_iff, decide_eq_decide]
      exact div_mod_eq_iff hdiv
    · rw [getD_set_ne (fun hh => hdiv hh.symm)]
      have hxy : y ≠ x := fun hh => hdiv (by rw [hh])
      simp [hxy]

/-- C9: `Add(x)` returns true iff `x` was absent immediately before the
call, `Remove(x)` returns true iff `x` was present immediately before the
call, and afterwards the set contains (respectively lacks) `x`. -/
theorem claim_C9 (s : IntSet) (x : Nat) :
    (add s x).1 = !has s x ∧ (remove s x).1 = has s x ∧
      has (add s x).2 x = true ∧ has (remove s x).2 x = false := by
  refine ⟨add_fst s x, remove_fst s x, ?_, ?_⟩
  · rw [has_add]; simp
  · rw [has_remove]; simp

/-- C10: `Has`, `Add` and `Remove` are total and index the word sequence
only in bounds: with every slice access replaced by fallible (`Option`)
indexing, the out-of-bounds branch is unreachable and the checked versions
agree with the total ones. -/
theorem claim_C10 (s : IntSet) (x : Nat) :
    hasChecked s x = some (has s x) ∧ addChecked s x = some (add s x) ∧
      removeChecked s x = some (remove s x) := by
  refine ⟨?_, ?_, ?_⟩
  · unfold hasChecked has wordMask
    by_cases h : x >>> lg2WordSize < s.words.length
    · simp [h, List.getElem?_eq_getElem h, List.getD_eq_getElem?_getD]
    · simp [h]
  · unfold addChecked add wordMask
    by_cases h : x >>> lg2WordSize < s.words.length
    · simp only [h, if_true, List.getElem?_eq_getElem h]
      by_cases h2 : s.words.getD (x >>> lg2WordSize) 0 &&& 1 <<< (x &&& bitmask) ≠ 0
      · have h2' : s.words[x >>> lg2WordSize] &&& 1 <<< (x &&& bitmask) ≠ 0 := by
          rwa [List.getD_eq_getElem?_getD, List.getElem?_eq_getElem h] at h2
        simp [h2', h2, h]
      · have h2' : ¬s.words[x >>> lg2WordSize] &&& 1 <<< (x &&& bitmask) ≠ 0 := by
          rwa [List.getD_eq_getElem?_getD, List.getElem?_eq_getElem h] at h2
        have hwlt : x >>> lg2WordSize < (growTo s.words (x >>> lg2WordSize)).length := by
          rw [length_growTo]; omega
        simp [h2', h2, h, List.getElem?_eq_getElem hwlt, List.getD_eq_getElem?_getD]
    · have hcond : ¬(x >>> lg2WordSize < s.words.length ∧
          s.words.getD (x >>> lg2WordSize) 0 &&& 1 <<< (x &&& bitmask) ≠ 0) := by
        intro hc; exact h hc.1
      have hwlt : x >>> lg2WordSize < (growTo s.words (x >>> lg2WordSize)).length := by
        rw [length_growTo]; omega
      simp [h, hcond, List.getElem?_eq_getElem hwlt, List.getD_eq_getElem?_getD]
  · unfold removeChecked remove wordMask
    by_cases h : s.words.length ≤ x >>> lg2WordSize
    · simp [h, Nat.not_lt.mpr h]
    · have hlt : x >>> lg2WordSize < s.words.length := Nat.lt_of_not_le h
      by_cases h2 : s.words.getD (x >>> lg2WordSize) 0 &&& 1 <<< (x &&& bitmask) = 0
      · have h2' : s.words[x >>> lg2WordSize] &&& 1 <<< (x &&& bitmask) = 0 := by
          rwa [List.getD_eq_getElem?_getD, List.getElem?_eq_getElem hlt] at h2
        simp [h, h2, h2', List.getElem?_eq_getElem hlt]
      · have h2' : ¬s.words[x >>> lg2WordSize] &&& 1 <<< (x &&& bitmask) = 0 := by
          rwa [List.getD_eq_getElem?_getD, List.getElem?_eq_getElem hlt] at h2
        simp [h, h2, h2', List.getElem?_eq_getElem hlt, List.getD_eq_getElem?_getD]

/-! ### Enumeration: membership, order, `AddAll` -/

theorem mem_wordElems {i w y : Nat} :
    y ∈ wordElems i w ↔ y / 64 = i ∧ w.testBit (y % 64) = true := by
  have hws : wordSize = 64 := rfl
  unfold wordElems
  rw [hws]
  simp only [List.mem_map, List.mem_filter, List.mem_range, bne_iff_ne]
  constructor
  · rintro ⟨j, ⟨hj, hbit⟩, rfl⟩
    have h1 : (64 * i + j) / 64 = i := by omega
    have h2 : (64 * i + j) % 64 = j := by omega
    rw [h1, h2]
    exact ⟨rfl, (land_mask_ne_zero w j).mp hbit⟩
  · rintro ⟨hdiv, hbit⟩
    refine ⟨y % 64, ⟨Nat.mod_lt _ (by omega), (land_mask_ne_zero w (y % 64)).mpr hbit⟩, ?_⟩
    omega

theorem mem_elemsFrom (y : Nat) (ws : List Nat) : ∀ i,
    y ∈ elemsFrom ws i ↔
      i ≤ y / 64 ∧ (ws.getD (y / 64 - i) 0).testBit (y % 64) = true := by
  induction ws with
  | nil =>
    intro i
    simp [elemsFrom, List.getD_eq_getElem?_getD]
  | cons w ws ih =>
    intro i
    have hcons : elemsFrom (w :: ws) i =
        (if w = 0 then [] else wordElems i w) ++ elemsFrom ws (i + 1) := rfl
    rw [hcons, List.mem_append, ih (i + 1)]
    rcases Nat.lt_trichotomy (y / 64) i with hlt | heq | hgt
    · have hA : y ∉ (if w = 0 then [] else wordElems i w) := by
        by_cases hw : w = 0
        · simp [hw]
        · rw [if_neg hw]
          intro hy
          exact absurd (mem_wordElems.mp hy).1 (by omega)
      have h1 : ¬i ≤ y / 64 := by omega
      have h2 : ¬i + 1 ≤ y / 64 := by omega
      simp [hA, h1, h2]
    · have hdiff : y / 64 - i = 0 := by omega
      have h2 : ¬i + 1 ≤ y / 64 := by omega
      rw [hdiff, List.getD_cons_zero]
      by_cases hw : w = 0
      · subst hw
        rw [if_pos rfl]
        constructor
        · rintro (h | h)
          · cases h
          · exact absurd h.1 h2
        · rintro ⟨-, hc⟩
          rw [Nat.zero_testBit] at hc
          cases hc
      · rw [if_neg hw]
        simp only [mem_wordElems, h2, false_and, or_false, heq]
        simp [heq]
    · have hA : y ∉ (if w = 0 then [] else wordElems i w) := by
        by_cases hw : w = 0
        · simp [hw]
        · rw [if_neg hw]
          intro hy
          exact absurd (mem_wordElems.mp hy).1 (by omega)
      have hd : y / 64 - i = (y / 64 - (i + 1)) + 1 := by omega
      rw [hd, List.getD_cons_succ]
      have h1 : i ≤ y / 64 := by omega
      have h2 : i + 1 ≤ y / 64 := by omega
      simp [hA, h1, h2]

theorem mem_elems {s : IntSet} {y : Nat} : y ∈ elems s ↔ has s y = true := by
  rw [elems, mem_elemsFrom, has_eq_testBit]
  unfold wordAt
  simp

theorem elemsFrom_lower {ws : List Nat} {i y : Nat} (hy : y ∈ elemsFrom ws i) :
    64 * i ≤ y := by
  rw [mem_elemsFrom] at hy
  have := hy.1
  omega

theorem sorted_wordElems (i w : Nat) : List.Sorted (· < ·) (wordElems i w) := by
  unfold wordElems
  exact ((List.sorted_lt_range wordSize).filter _).map _ (fun a b h => by omega)

theorem sorted_elemsFrom (ws : List Nat) : ∀ i, List.Sorted (· < ·) (elemsFrom ws i) := by
  induction ws with
  | nil => intro i; simp [elemsFrom]
  | cons w ws ih =>
    intro i
    have hcons : elemsFrom (w :: ws) i =
        (if w = 0 then [] else wordElems i w) ++ elemsFrom ws (i + 1) := rfl
    rw [hcons, List.Sorted, List.pairwise_append]
    refine ⟨?_, ih (i + 1), ?_⟩
    · by_cases hw : w = 0
      · simp [hw]
      · rw [if_neg hw]; exact sorted_wordElems i w
    · intro a ha b hb
      have hb' : 64 * (i + 1) ≤ b := elemsFrom_lower hb
      by_cases hw : w = 0
      · rw [if_pos hw] at ha; cases ha
      · rw [if_neg hw] at ha
        have := (mem_wordElems.mp ha).1
        omega

theorem sorted_elems (s : IntSet) : List.Sorted (· < ·) (elems s) :=
  sorted_elemsFrom s.words 0

theorem eq_of_sorted_of_mem_iff {l₁ l₂ : List Nat} (h₁ : List.Sorted (· < ·) l₁)
    (h₂ : List.Sorted (· < ·) l₂) (hm : ∀ y, y ∈ l₁ ↔ y ∈ l₂) : l₁ = l₂ :=
  List.eq_of_perm_of_sorted ((List.perm_ext_iff_of_nodup h₁.nodup h₂.nodup).mpr hm)
    h₁.le_of_lt h₂.le_of_lt

theorem has_empty (y : Nat) : has empty y = false := by
  rw [has_eq_testBit]
  simp [wordAt, empty]

theorem has_addAll (s : IntSet) (xs : List Nat) (y : Nat) :
    has (addAll s xs) y = (has s y || decide (y ∈ xs)) := by
  induction xs generalizing s with
  | nil => simp [addAll]
  | cons x xs ih =>
    have hfold : addAll s (x :: xs) = addAll (add s x).2 xs := rfl
    rw [hfold, ih, has_add]
    by_cases h : y = x <;> by_cases h2 : y ∈ xs <;> simp [h, h2]

/-- C1: building a set by `Add`-ing each element of a sequence `S` and
enumerating with `Elems()` yields exactly the sorted ascending,
duplicate-free sequence of the values of `S`. -/
theorem claim_C1 (S : List Nat) :
    elems (addAll empty S) = S.toFinset.sort (· ≤ ·) := by
  apply eq_of_sorted_of_mem_iff (sorted_elems _) (Finset.sort_sorted_lt _)
  intro y
  rw [mem_elems, has_addAll, has_empty, Bool.false_or, Finset.mem_sort, List.mem_toFinset]
  simp

/-! ### Cardinality: `popcount` and `Len` -/

theorem popcount_zero : popcount 0 = 0 := by
  simp [popcount]

theorem lenSet_foldl (ws : List Nat) :
    ∀ n, ws.foldl (fun n w => if w = 0 then n else n + popcount w) n =
      n + (ws.map popcount).sum := by
  induction ws with
  | nil => intro n; simp
  | cons w ws ih =>
    intro n
    rw [List.foldl_cons, ih, List.map_cons, List.sum_cons]
    by_cases hw : w = 0
    · subst hw
      rw [if_pos rfl, popcount_zero]
      omega
    · rw [if_neg hw]
      omega

theorem lenSet_eq_sum (s : IntSet) : lenSet s = (s.words.map popcount).sum := by
  unfold lenSet
  rw [lenSet_foldl]
  omega

theorem length_wordElems (w i : Nat) : (wordElems i w).length = popcount w := by
  unfold wordElems popcount
  rw [List.length_map]
  congr 1
  apply List.filter_congr
  intro j _
  cases hb : w.testBit j
  · have hz : w &&& 1 <<< j = 0 := by
      by_contra hc
      rw [(land_mask_ne_zero w j).mp hc] at hb
      cases hb
    simp [hz]
  · have hnz : w &&& 1 <<< j ≠ 0 := (land_mask_ne_zero w j).mpr hb
    simp [hnz]

theorem length_elemsFrom (ws : List Nat) :
    ∀ i, (elemsFrom ws i).length = (ws.map popcount).sum := by
  induction ws with
  | nil => intro i; rfl
  | cons w ws ih =>
    intro i
    have hcons : elemsFrom (w :: ws) i =
        (if w = 0 then [] else wordElems i w) ++ elemsFrom ws (i + 1) := rfl
    rw [hcons, List.length_append, List.map_cons, List.sum_cons, ih (i + 1)]
    by_cases hw : w = 0
    · subst hw
      rw [if_pos rfl, popcount_zero]
      rfl
    · rw [if_neg hw, length_wordElems w i]

theorem lenSet_eq_length_elems (s : IntSet) :
    lenSet s = (elems s).length := by
  rw [lenSet_eq_sum, elems, length_elemsFrom s.words 0]

/-! ### Same-elements reasoning -/

theorem wordAt_lt {s : IntSet} (hs : Wf s) (i : Nat) : wordAt s i < 2 ^ 64 := by
  unfold wordAt
  by_cases h : i < s.words.length
  · rw [List.getD_eq_getElem?_getD, List.getElem?_eq_getElem h]
    exact hs _ (List.getElem_mem h)
  · rw [getD_oob (Nat.le_of_not_lt h)]
    exact Nat.two_pow_pos 64

theorem has_word_bit (s : IntSet) {i j : Nat} (hj : j < 64) :
    has s (64 * i + j) = (wordAt s i).testBit j := by
  rw [has_eq_testBit]
  rw [show (64 * i + j) / 64 = i by omega, show (64 * i + j) % 64 = j by omega]

theorem wordAt_oob {s : IntSet} {i : Nat} (h : s.words.length ≤ i) : wordAt s i = 0 :=
  getD_oob h

theorem sameElems_of_subset_of_len {s t : IntSet}
    (hsub : ∀ y, has s y = true → has t y = true) (hlen : lenSet s = lenSet t) :
    ∀ y, has s y = has t y := by
  have hsub' : elems s ⊆ elems t := fun y hy => mem_elems.mpr (hsub y (mem_elems.mp hy))
  have hsp := List.subperm_of_subset (sorted_elems s).nodup hsub'
  have hlen' : (elems t).length ≤ (elems s).length := by
    rw [← lenSet_eq_length_elems s, ← lenSet_eq_length_elems t, hlen]
  have hperm := hsp.perm_of_length_le hlen'
  intro y
  cases hys : has s y
  · cases hyt : has t y
    · rfl
    · exact absurd (mem_elems.mp (hperm.mem_iff.mpr (mem_elems.mpr hyt))) (by rw [hys]; simp)
  · exact (hsub y hys).symm

theorem wordAt_eq_of_sameElems {s t : IntSet} (hs : Wf s) (ht : Wf t)
    (h : ∀ y, has s y = has t y) (i : Nat) : wordAt s i = wordAt t i := by
  apply Nat.eq_of_testBit_eq
  intro j
  by_cases hj : j < 64
  · rw [← has_word_bit s hj, ← has_word_bit t hj]
    exact h _
  · have h64 : (2 : Nat) ^ 64 ≤ 2 ^ j := Nat.pow_le_pow_right (by omega) (by omega)
    rw [Nat.testBit_eq_false_of_lt (Nat.lt_of_lt_of_le (wordAt_lt hs i) h64),
      Nat.testBit_eq_false_of_lt (Nat.lt_of_lt_of_le (wordAt_lt ht i) h64)]

theorem elems_eq_of_sameElems {s t : IntSet} (h : ∀ y, has s y = has t y) :
    elems s = elems t := by
  apply eq_of_sorted_of_mem_iff (sorted_elems s) (sorted_elems t)
  intro y
  rw [mem_elems, mem_elems, h y]

/-! ### `Equals` -/

theorem eqWords_true_iff (tws : List Nat) : ∀ (ws : List Nat) (i : Nat),
    eqWords tws ws i = true ↔
      ∀ k, k < ws.length → ws.getD k 0 ≠ 0 →
        (i + k < tws.length ∧ ws.getD k 0 = tws.getD (i + k) 0) := by
  intro ws
  induction ws with
  | nil =>
    intro i
    simp [eqWords]
  | cons w ws ih =>
    intro i
    rw [eqWords]
    by_cases hw : w = 0
    · subst hw
      rw [if_pos rfl, ih (i + 1)]
      constructor
      · intro hrec k hk hne
        match k with
        | 0 => exact absurd rfl hne
        | k + 1 =>
          have := hrec k (by simpa using hk) (by simpa using hne)
          refine ⟨by omega, ?_⟩
          rw [show i + (k + 1) = i + 1 + k by omega]
          simpa using this.2
      · intro hall k hk hne
        have := hall (k + 1) (by simpa using hk) (by simpa using hne)
        refine ⟨by omega, ?_⟩
        rw [show i + 1 + k = i + (k + 1) by omega]
        simpa using this.2
    · rw [if_neg hw]
      by_cases hlen : tws.length ≤ i
      · rw [if_pos hlen]
        constructor
        · intro hc; cases hc
        · intro hall
          have := hall 0 (by simp) (by simpa using hw)
          omega
      · rw [if_neg hlen]
        by_cases hne : w ≠ tws.getD i 0
        · rw [if_pos hne]
          constructor
          · intro hc; cases hc
          · intro hall
            have := hall 0 (by simp) (by simpa using hw)
            simp only [Nat.add_zero, List.getD_cons_zero] at this
            exact absurd this.2 hne
        · rw [if_neg hne, ih (i + 1)]
          push_neg at hne
          constructor
          · intro hrec k hk hkne
            match k with
            | 0 => exact ⟨by omega, by simpa using hne⟩
            | k + 1 =>
              have := hrec k (by simpa using hk) (by simpa using hkne)
              refine ⟨by omega, ?_⟩
              rw [show i + (k + 1) = i + 1 + k by omega]
              simpa using this.2
          · intro hall k hk hkne
            have := hall (k + 1) (by simpa using hk) (by simpa using hkne)
            refine ⟨by omega, ?_⟩
            rw [show i + 1 + k = i + (k + 1) by omega]
            simpa using this.2

theorem subset_of_wordConds {s t : IntSet}
    (hW : ∀ k, k < s.words.length → s.words.getD k 0 ≠ 0 → s.words.getD k 0 = t.words.getD k 0)
    (y : Nat) (hy : has s y = true) : has t y = true := by
  rw [has_eq_testBit] at hy ⊢
  have hne : wordAt s (y / 64) ≠ 0 := by
    intro hz
    rw [hz, Nat.zero_testBit] at hy
    cases hy
  have hlt : y / 64 < s.words.length := by
    by_contra hc
    exact hne (wordAt_oob (Nat.le_of_not_lt hc))
  have := hW (y / 64) hlt hne
  unfold wordAt at hy ⊢
  rw [← this]
  exact hy

theorem equalsFn_true_iff {s t : IntSet} (hs : Wf s) (ht : Wf t) :
    equalsFn s t = true ↔ ∀ y, has s y = has t y := by
  unfold equalsFn
  constructor
  · intro h
    by_cases hlen : lenSet s ≠ lenSet t
    · rw [if_pos hlen] at h; cases h
    · rw [if_neg hlen] at h
      push_neg at hlen
      have hW := (eqWords_true_iff t.words s.words 0).mp h
      refine sameElems_of_subset_of_len ?_ hlen
      intro y hy
      exact subset_of_wordConds (fun k hk hne => by simpa using (hW k hk hne).2) y hy
  · intro h
    have hwa := wordAt_eq_of_sameElems hs ht h
    have hlen : lenSet s = lenSet t := by
      rw [lenSet_eq_length_elems s, lenSet_eq_length_elems t, elems_eq_of_sameElems h]
    rw [if_neg (by omega)]
    rw [eqWords_true_iff]
    intro k hk hne
    have hk2 : s.words.getD k 0 = t.words.getD k 0 := by
      have := hwa k
      unfold wordAt at this
      exact this
    refine ⟨?_, by simpa using hk2⟩
    by_contra hc
    rw [hk2, getD_oob (by omega)] at hne
    exact hne rfl

theorem equalsSpecFn_true_iff {s t : IntSet} (hs : Wf s) (ht : Wf t) :
    equalsSpecFn s t = true ↔ ∀ y, has s y = has t y := by
  unfold equalsSpecFn
  rw [Bool.and_eq_true, beq_iff_eq, decide_eq_true_eq]
  constructor
  · rintro ⟨hlen, hW⟩
    refine sameElems_of_subset_of_len ?_ hlen
    intro y hy
    exact subset_of_wordConds (fun k hk _ => hW k hk) y hy
  · intro h
    have hwa := wordAt_eq_of_sameElems hs ht h
    refine ⟨?_, fun i _ => by have := hwa i; unfold wordAt at this; exact this⟩
    rw [lenSet_eq_length_elems s, lenSet_eq_length_elems t, elems_eq_of_sameElems h]

/-- C2: `Equals` returns true exactly when the two sets have the same
elements; `s.Equals(s)` is always true; and the result coincides with the
spec's characterization (length match plus word-wise comparison over the
receiver's range, missing trailing words read as zero), so sets differing
only in trailing all-zero words compare equal. -/
theorem claim_C2 (s t : IntSet) (hs : Wf s) (ht : Wf t) :
    (equalsFn s t = true ↔ ∀ x, has s x = has t x) ∧
      equalsFn s s = true ∧
      equalsFn s t = equalsSpecFn s t := by
  refine ⟨equalsFn_true_iff hs ht, (equalsFn_true_iff hs hs).mpr (fun _ => rfl), ?_⟩
  cases h1 : equalsFn s t
  · cases h2 : equalsSpecFn s t
    · rfl
    · have := (equalsFn_true_iff hs ht).mpr ((equalsSpecFn_true_iff hs ht).mp h2)
      rw [h1] at this
      cases this
  · cases h2 : equalsSpecFn s t
    · have := (equalsSpecFn_true_iff hs ht).mpr ((equalsFn_true_iff hs ht).mp h1)
      rw [h2] at this
      cases this
    · rfl

/-- Witness for C2 at concrete sets: `{1,9,144}` compared with the set
holding the same elements but an extra trailing zero word (obtained by
adding and removing 200). -/
theorem claim_C2_witness :
    Wf (addAll empty [1, 9, 144]) ∧ Wf (remove (addAll empty [1, 9, 144, 200]) 200).2 ∧
      ((equalsFn (addAll empty [1, 9, 144]) (remove (addAll empty [1, 9, 144, 200]) 200).2 = true ↔
          ∀ x, has (addAll empty [1, 9, 144]) x =
            has (remove (addAll empty [1, 9, 144, 200]) 200).2 x) ∧
        equalsFn (addAll empty [1, 9, 144]) (addAll empty [1, 9, 144]) = true ∧
        equalsFn (addAll empty [1, 9, 144]) (remove (addAll empty [1, 9, 144, 200]) 200).2 =
          equalsSpecFn (addAll empty [1, 9, 144]) (remove (addAll empty [1, 9, 144, 200]) 200).2) :=
  ⟨by decide, by decide, claim_C2 _ _ (by decide) (by decide)⟩

/-! ### `TakeMin` -/

theorem ntzScan_spec (w : Nat) : ∀ (fuel j : Nat),
    (ntzScan w fuel j = j + fuel ∧ ∀ k, j ≤ k → k < j + fuel → w.testBit k = false) ∨
    (ntzScan w fuel j < j + fuel ∧ j ≤ ntzScan w fuel j ∧
      w.testBit (ntzScan w fuel j) = true ∧
      ∀ k, j ≤ k → k < ntzScan w fuel j → w.testBit k = false) := by
  intro fuel
  induction fuel with
  | zero =>
    intro j
    left
    exact ⟨rfl, fun k h1 h2 => by omega⟩
  | succ fuel ih =>
    intro j
    rw [ntzScan]
    by_cases hb : w.testBit j
    · right
      rw [if_pos hb]
      exact ⟨by omega, Nat.le_refl j, hb, fun k h1 h2 => by omega⟩
    · rw [if_neg hb]
      have hbf : w.testBit j = false := by
        cases hbb : w.testBit j
        · rfl
        · exact absurd hbb hb
      rcases ih (j + 1) with ⟨he, hall⟩ | ⟨h1, h2, h3, h4⟩
      · left
        refine ⟨by omega, fun k hk1 hk2 => ?_⟩
        by_cases hkj : k = j
        · subst hkj; exact hbf
        · exact hall k (by omega) (by omega)
      · right
        refine ⟨by omega, by omega, h3, fun k hk1 hk2 => ?_⟩
        by_cases hkj : k = j
        · subst hkj; exact hbf
        · exact h4 k (by omega) hk2

theorem ntz_spec {w : Nat} (hw : w ≠ 0) (hlt : w < 2 ^ 64) :
    ntz w < 64 ∧ w.testBit (ntz w) = true ∧ ∀ k < ntz w, w.testBit k = false := by
  have hws : wordSize = 64 := rfl
  unfold ntz
  rw [hws]
  rcases ntzScan_spec w 64 0 with ⟨he, hall⟩ | ⟨h1, _, h3, h4⟩
  · exfalso
    apply hw
    apply Nat.eq_of_testBit_eq
    intro j
    rw [Nat.zero_testBit]
    by_cases hj : j < 64
    · exact hall j (by omega) (by omega)
    · exact Nat.testBit_eq_false_of_lt
        (Nat.lt_of_lt_of_le hlt (Nat.pow_le_pow_right (by omega) (by omega)))
  · exact ⟨by omega, h3, fun k hk => h4 k (by omega) hk⟩

theorem takeMinWords_none_iff : ∀ (ws : List Nat) (i : Nat),
    takeMinWords ws i = none ↔ ∀ w ∈ ws, w = 0 := by
  intro ws
  induction ws with
  | nil => intro i; simp [takeMinWords]
  | cons w ws ih =>
    intro i
    rw [takeMinWords]
    by_cases hw : w = 0
    · subst hw
      rw [if_pos rfl]
      cases hrec : takeMinWords ws (i + 1) with
      | none =>
        simp only [List.mem_cons]
        constructor
        · intro _ x hx
          rcases hx with hx | hx
          · exact hx
          · exact ((ih (i + 1)).mp hrec) x hx
        · intro _; trivial
      | some v =>
        simp only [List.mem_cons]
        constructor
        · intro hc; cases hc
        · intro hall
          have := (ih (i + 1)).mpr (fun x hx => hall x (Or.inr hx))
          rw [this] at hrec
          cases hrec
    · rw [if_neg hw]
      simp only [List.mem_cons]
      constructor
      · intro hc; cases hc
      · intro hall
        exact absurd (hall w (Or.inl rfl)) hw

theorem takeMinWords_some_spec : ∀ (ws : List Nat), (∀ w ∈ ws, w < 2 ^ 64) →
    ∀ (i : Nat) {m : Nat} {tl : List Nat}, takeMinWords ws i = some (m, tl) →
      tl.length = ws.length ∧ (∀ w ∈ tl, w < 2 ^ 64) ∧
      m ∈ elemsFrom ws i ∧ (∀ y ∈ elemsFrom ws i, m ≤ y) ∧
      (∀ y, y ∈ elemsFrom tl i ↔ (y ∈ elemsFrom ws i ∧ y ≠ m)) := by
  intro ws
  induction ws with
  | nil =>
    intro _ i m tl h
    cases h
  | cons w ws ih =>
    intro hwf i m tl h
    have hwfw : w < 2 ^ 64 := hwf w (List.mem_cons_self w ws)
    have hwfs : ∀ x ∈ ws, x < 2 ^ 64 := fun x hx => hwf x (List.mem_cons_of_mem w hx)
    rw [takeMinWords] at h
    by_cases hw : w = 0
    · subst hw
      rw [if_pos rfl] at h
      cases hrec : takeMinWords ws (i + 1) with
      | none => rw [hrec] at h; cases h
      | some v =>
        rw [hrec] at h
        obtain ⟨x, ws0⟩ := v
        have hinj : m = x ∧ tl = 0 :: ws0 := by
          cases h
          exact ⟨rfl, rfl⟩
        obtain ⟨hm, htl⟩ := hinj
        subst hm
        subst htl
        obtain ⟨hlen, hwf0, hmem, hmin, hiff⟩ := ih hwfs (i + 1) hrec
        have hshape : ∀ (l : List Nat),
            elemsFrom ((0 : Nat) :: l) i = elemsFrom l (i + 1) := by
          intro l
          show (if (0 : Nat) = 0 then [] else wordElems i 0) ++ elemsFrom l (i + 1) = _
          rw [if_pos rfl, List.nil_append]
        rw [hshape, hshape]
        refine ⟨by simpa using hlen, ?_, hmem, hmin, hiff⟩
        intro x hx
        rcases List.mem_cons.mp hx with hx | hx
        · subst hx; exact Nat.two_pow_pos 64
        · exact hwf0 x hx
    · rw [if_neg hw] at h
      obtain ⟨hntz, hbit, hmin0⟩ := ntz_spec hw hwfw
      have hws : wordSize = 64 := rfl
      have hinj : m = wordSize * i + ntz w ∧ tl = andNot w (1 <<< ntz w) :: ws := by
        cases h
        exact ⟨rfl, rfl⟩
      obtain ⟨hm, htl⟩ := hinj
      subst hm
      subst htl
      rw [hws]
      have hdivm : (64 * i + ntz w) / 64 = i := by omega
      have hmodm : (64 * i + ntz w) % 64 = ntz w := by omega
      refine ⟨by simp, ?_, ?_, ?_, ?_⟩
      · intro x hx
        rcases List.mem_cons.mp hx with hx | hx
        · subst hx
          exact Nat.lt_of_le_of_lt Nat.and_le_left hwfw
        · exact hwfs x hx
      · rw [mem_elemsFrom]
        rw [hdivm, hmodm]
        refine ⟨by omega, ?_⟩
        rw [show i - i = 0 by omega, List.getD_cons_zero]
        exact hbit
      · intro y hy
        rw [mem_elemsFrom] at hy
        obtain ⟨hyi, hybit⟩ := hy
        by_cases hyeq : y / 64 = i
        · rw [hyeq, show i - i = 0 by omega, List.getD_cons_zero] at hybit
          have : ¬ y % 64 < ntz w := by
            intro hc
            rw [hmin0 _ hc] at hybit
            cases hybit
          omega
        · have : i + 1 ≤ y / 64 := by omega
          omega
      · intro y
        rw [mem_elemsFrom, mem_elemsFrom]
        by_cases hyeq : y / 64 = i
        · rw [hyeq, show i - i = 0 by omega, List.getD_cons_zero, List.getD_cons_zero]
          rw [testBit_andNot_lt (by omega), Nat.one_shiftLeft, Nat.testBit_two_pow]
          constructor
          · rintro ⟨h1, h2⟩
            rw [Bool.and_eq_true, Bool.not_eq_eq_eq_not, Bool.not_true,
              decide_eq_false_iff_not] at h2
            refine ⟨⟨h1, h2.1⟩, ?_⟩
            intro hc
            exact h2.2 (by omega)
          · rintro ⟨⟨h1, h2⟩, h3⟩
            refine ⟨h1, ?_⟩
            rw [Bool.and_eq_true, Bool.not_eq_eq_eq_not, Bool.not_true,
              decide_eq_false_iff_not]
            exact ⟨h2, fun hc => h3 (by omega)⟩
        · have hne : y ≠ 64 * i + ntz w := by
            intro hc
            apply hyeq
            rw [hc]
            omega
          have hd : ∀ k, y / 64 - i = k + 1 → True := fun _ _ => trivial
          constructor
          · rintro ⟨h1, h2⟩
            have hgt : i + 1 ≤ y / 64 := by omega
            rw [show y / 64 - i = (y / 64 - i - 1) + 1 by omega,
              List.getD_cons_succ] at h2 ⊢
            exact ⟨⟨h1, h2⟩, hne⟩
          · rintro ⟨⟨h1, h2⟩, -⟩
            have hgt : i + 1 ≤ y / 64 := by omega
            rw [show y / 64 - i = (y / 64 - i - 1) + 1 by omega,
              List.getD_cons_succ] at h2 ⊢
            exact ⟨h1, h2⟩

theorem isEmpty_iff_all_zero (s : IntSet) : isEmpty s = true ↔ ∀ w ∈ s.words, w = 0 := by
  simp [isEmpty]

theorem takeMin_empty {s : IntSet} (h : isEmpty s = true) (p : Nat) :
    takeMin s p = (false, p, s) := by
  unfold takeMin
  rw [(takeMinWords_none_iff s.words 0).mpr ((isEmpty_iff_all_zero s).mp h)]

theorem elems_ne_nil {s : IntSet} (hs : Wf s) (h : isEmpty s = false) :
    elems s ≠ [] := by
  have hnall : ¬∀ w ∈ s.words, w = 0 := by
    intro hall
    rw [(isEmpty_iff_all_zero s).mpr hall] at h
    cases h
  push_neg at hnall
  obtain ⟨w, hwmem, hwne⟩ := hnall
  obtain ⟨k, hk, hkw⟩ := List.mem_iff_getElem.mp hwmem
  obtain ⟨hlt, hbit, -⟩ := ntz_spec hwne (hs w hwmem)
  intro hnil
  have hm : (64 * k + ntz w) ∈ elems s := by
    rw [elems, mem_elemsFrom]
    refine ⟨by omega, ?_⟩
    rw [show (64 * k + ntz w) / 64 = k by omega, Nat.sub_zero,
      show (64 * k + ntz w) % 64 = ntz w by omega,
      List.getD_eq_getElem?_getD, List.getElem?_eq_getElem hk, Option.getD_some, hkw]
    exact hbit
  rw [hnil] at hm
  cases hm

theorem elems_nil_of_empty {s : IntSet} (h : isEmpty s = true) : elems s = [] := by
  cases helems : elems s with
  | nil => rfl
  | cons a l =>
    exfalso
    have ha : a ∈ elems s := by rw [helems]; exact List.mem_cons_self _ _
    have hb := mem_elems.mp ha
    rw [has_eq_testBit] at hb
    have hz : wordAt s (a / 64) = 0 := by
      unfold wordAt
      by_cases hk : a / 64 < s.words.length
      · rw [List.getD_eq_getElem?_getD, List.getElem?_eq_getElem hk, Option.getD_some]
        exact ((isEmpty_iff_all_zero s).mp h) _ (List.getElem_mem hk)
      · exact getD_oob (by omega)
    rw [hz, Nat.zero_testBit] at hb
    cases hb

theorem takeMin_elems {s : IntSet} (hs : Wf s) {m : Nat} {tl : List Nat}
    (h : takeMinWords s.words 0 = some (m, tl)) :
    Wf (⟨tl⟩ : IntSet) ∧ elems s = m :: elems (⟨tl⟩ : IntSet) := by
  obtain ⟨hlen, hwf, hmem, hmin, hiff⟩ := takeMinWords_some_spec s.words hs 0 h
  have hel1 : elemsFrom s.words 0 = elems s := rfl
  have hel2 : elemsFrom tl 0 = elems (⟨tl⟩ : IntSet) := rfl
  rw [hel1] at hmem hmin
  simp only [hel1, hel2] at hiff
  refine ⟨hwf, ?_⟩
  have hmem' : m ∈ elems s := hmem
  have hne : elems s ≠ [] := fun hc => by rw [hc] at hmem'; cases hmem'
  obtain ⟨hd, tl2, hl⟩ := List.exists_cons_of_ne_nil hne
  have hsort := sorted_elems s
  rw [hl] at hsort
  have hhd : hd = m := by
    have h1 : m ≤ hd := hmin hd (by rw [hl]; exact List.mem_cons_self _ _)
    have h2 : hd ≤ m := by
      have hm2 : m ∈ hd :: tl2 := by rw [← hl]; exact hmem'
      rcases List.mem_cons.mp hm2 with hcc | hcc
      · omega
      · have := List.rel_of_sorted_cons hsort m hcc
        omega
    omega
  rw [hl, hhd]
  congr 1
  apply eq_of_sorted_of_mem_iff hsort.of_cons (sorted_elems _)
  intro y
  constructor
  · intro hy
    have hyel : y ∈ elems s := by rw [hl]; exact List.mem_cons_of_mem _ hy
    have hym : y ≠ m := by
      intro hc
      subst hc
      have hnd := hsort.nodup
      rw [List.nodup_cons] at hnd
      rw [← hhd] at hy
      exact hnd.1 hy
    exact (hiff y).mpr ⟨hyel, hym⟩
  · intro hy
    obtain ⟨hyel, hym⟩ := (hiff y).mp hy
    rw [hl] at hyel
    rcases List.mem_cons.mp hyel with hcc | hcc
    · exact absurd (hcc.trans hhd) hym
    · exact hcc

theorem drain_spec : ∀ (n : Nat) (s : IntSet), Wf s → (elems s).length = n →
    (drain n s).1 = elems s ∧ isEmpty (drain n s).2 = true := by
  intro n
  induction n with
  | zero =>
    intro s hs hlen
    have hnil : elems s = [] := List.eq_nil_of_length_eq_zero hlen
    have hie : isEmpty s = true := by
      cases hc : isEmpty s
      · exact absurd hnil (elems_ne_nil hs hc)
      · rfl
    exact ⟨hnil.symm, hie⟩
  | succ n ih =>
    intro s hs hlen
    have hne : elems s ≠ [] := by
      intro hc
      rw [hc] at hlen
      cases hlen
    cases htm : takeMinWords s.words 0 with
    | none =>
      exfalso
      exact hne (elems_nil_of_empty
        ((isEmpty_iff_all_zero s).mpr ((takeMinWords_none_iff _ _).mp htm)))
    | some v =>
      obtain ⟨m, tl⟩ := v
      obtain ⟨hwf2, helems⟩ := takeMin_elems hs htm
      have hlen2 : (elems (⟨tl⟩ : IntSet)).length = n := by
        rw [helems] at hlen
        simpa using hlen
      obtain ⟨ih1, ih2⟩ := ih ⟨tl⟩ hwf2 hlen2
      have hdrain : drain (n + 1) s =
          (m :: (drain n (⟨tl⟩ : IntSet)).1, (drain n (⟨tl⟩ : IntSet)).2) := by
        show (match takeMinWords s.words 0 with
          | none => ([], s)
          | some (m, ws) =>
            (m :: (drain n (⟨ws⟩ : IntSet)).1, (drain n (⟨ws⟩ : IntSet)).2)) = _
        rw [htm]
      rw [hdrain, helems]
      exact ⟨by rw [ih1], ih2⟩

/-- C3: `TakeMin` on a non-empty set writes the minimum to `*p`, removes
exactly that element and returns true; on an empty set it returns false
and leaves `*p` untouched; draining with repeated `TakeMin` yields the
elements in strictly ascending order, leaves the set empty, and further
calls return false. -/
theorem claim_C3 (s : IntSet) (p : Nat) (hs : Wf s) :
    (isEmpty s = true → takeMin s p = (false, p, s)) ∧
    (isEmpty s = false →
      (takeMin s p).1 = true ∧
      has s (takeMin s p).2.1 = true ∧
      (∀ y, has s y = true → (takeMin s p).2.1 ≤ y) ∧
      (∀ y, has (takeMin s p).2.2 y = true ↔
        (has s y = true ∧ y ≠ (takeMin s p).2.1))) ∧
    (List.Sorted (· < ·) (drain (lenSet s) s).1 ∧
      isEmpty (drain (lenSet s) s).2 = true ∧
      takeMin (drain (lenSet s) s).2 p = (false, p, (drain (lenSet s) s).2)) := by
  obtain ⟨hd1, hd2⟩ := drain_spec (lenSet s) s hs (lenSet_eq_length_elems s).symm
  refine ⟨fun h => takeMin_empty h p, ?_, ?_, hd2, takeMin_empty hd2 p⟩
  · intro hne
    cases htm : takeMinWords s.words 0 with
    | none =>
      exfalso
      rw [(isEmpty_iff_all_zero s).mpr ((takeMinWords_none_iff _ _).mp htm)] at hne
      cases hne
    | some v =>
      obtain ⟨m, tl⟩ := v
      obtain ⟨hlen, hwf, hmem, hmin, hiff⟩ := takeMinWords_some_spec s.words hs 0 htm
      have hel1 : elemsFrom s.words 0 = elems s := rfl
      have hel2 : elemsFrom tl 0 = elems (⟨tl⟩ : IntSet) := rfl
      rw [hel1] at hmem hmin
      simp only [hel1, hel2] at hiff
      have ht : takeMin s p = (true, m, ⟨tl⟩) := by
        unfold takeMin
        rw [htm]
      rw [ht]
      refine ⟨rfl, mem_elems.mp hmem, ?_, ?_⟩
      · intro y hy
        exact hmin y (mem_elems.mpr hy)
      · intro y
        show has (⟨tl⟩ : IntSet) y = true ↔ (has s y = true ∧ y ≠ m)
        constructor
        · intro hy
          have hmm := (hiff y).mp (mem_elems.mpr hy)
          exact ⟨mem_elems.mp hmm.1, hmm.2⟩
        · rintro ⟨h1, h2⟩
          exact mem_elems.mp ((hiff y).mpr ⟨mem_elems.mpr h1, h2⟩)
  · rw [hd1]
    exact sorted_elems s

/-- Witness for C3 at the concrete worklist `{2, 5, 7}` with `p = 0`. -/
theorem claim_C3_witness :
    Wf (addAll empty [5, 2, 7]) ∧
      ((isEmpty (addAll empty [5, 2, 7]) = true →
          takeMin (addAll empty [5, 2, 7]) 0 = (false, 0, addAll empty [5, 2, 7])) ∧
        (isEmpty (addAll empty [5, 2, 7]) = false →
          (takeMin (addAll empty [5, 2, 7]) 0).1 = true ∧
          has (addAll empty [5, 2, 7]) (takeMin (addAll empty [5, 2, 7]) 0).2.1 = true ∧
          (∀ y, has (addAll empty [5, 2, 7]) y = true →
            (takeMin (addAll empty [5, 2, 7]) 0).2.1 ≤ y) ∧
          (∀ y, has (takeMin (addAll empty [5, 2, 7]) 0).2.2 y = true ↔
            (has (addAll empty [5, 2, 7]) y = true ∧
              y ≠ (takeMin (addAll empty [5, 2, 7]) 0).2.1))) ∧
        (List.Sorted (· < ·)
            (drain (lenSet (addAll empty [5, 2, 7])) (addAll empty [5, 2, 7])).1 ∧
          isEmpty (drain (lenSet (addAll empty [5, 2, 7])) (addAll empty [5, 2, 7])).2 =
            true ∧
          takeMin (drain (lenSet (addAll empty [5, 2, 7])) (addAll empty [5, 2, 7])).2 0 =
            (false, 0,
              (drain (lenSet (addAll empty [5, 2, 7])) (addAll empty [5, 2, 7])).2))) :=
  ⟨by decide, claim_C3 (addAll empty [5, 2, 7]) 0 (by decide)⟩

/-! ### `DifferenceWith` self-difference (C7) -/

theorem andNot_self {a : Nat} (ha : a < 2 ^ 64) : andNot a a = 0 := by
  apply Nat.eq_of_testBit_eq
  intro j
  rw [Nat.zero_testBit]
  by_cases hj : j < 64
  · rw [testBit_andNot_lt hj]
    cases a.testBit j <;> rfl
  · unfold andNot
    rw [Nat.testBit_land, Nat.testBit_eq_false_of_lt
      (Nat.lt_of_lt_of_le ha (Nat.pow_le_pow_right (by omega) (by omega)))]
    rfl

theorem diffWords_self_zero : ∀ ws : List Nat, (∀ w ∈ ws, w < 2 ^ 64) →
    ∀ w ∈ diffWords ws ws, w = 0 := by
  intro ws
  induction ws with
  | nil =>
    intro _ w hw
    cases hw
  | cons a l ih =>
    intro hwf w hw
    have hshape : diffWords (a :: l) (a :: l) = andNot a a :: diffWords l l := rfl
    rw [hshape] at hw
    rcases List.mem_cons.mp hw with h | h
    · rw [h]
      exact andNot_self (hwf a (List.mem_cons_self a l))
    · exact ih (fun x hx => hwf x (List.mem_cons_of_mem a hx)) w h

theorem has_false_of_all_zero {s : IntSet} (h : ∀ w ∈ s.words, w = 0) (y : Nat) :
    has s y = false := by
  rw [has_eq_testBit]
  have hz : wordAt s (y / 64) = 0 := by
    unfold wordAt
    by_cases hk : y / 64 < s.words.length
    · rw [List.getD_eq_getElem?_getD, List.getElem?_eq_getElem hk, Option.getD_some]
      exact h _ (List.getElem_mem hk)
    · exact getD_oob (by omega)
  rw [hz, Nat.zero_testBit]

/-- C7: self-difference yields the empty set, and the special-cased
self-reference path (`sameRef = true`, i.e. `Clear`) is observably
equivalent — under `Equals`, `Len`, `Has` and enumeration — to the general
word-wise `receiver[i] &^ t[i]` formula applied with `t = s`. -/
theorem claim_C7 (s : IntSet) (hs : Wf s) :
    isEmpty (differenceWith true s s) = true ∧
      isEmpty (differenceWith false s s) = true ∧
      equalsFn (differenceWith false s s) (differenceWith true s s) = true ∧
      lenSet (differenceWith false s s) = lenSet (differenceWith true s s) ∧
      (∀ x, has (differenceWith false s s) x = has (differenceWith true s s) x) ∧
      elems (differenceWith false s s) = elems (differenceWith true s s) := by
  have hgen : differenceWith false s s = ⟨diffWords s.words s.words⟩ := rfl
  have hclr : differenceWith true s s = ⟨[]⟩ := rfl
  have hzero := diffWords_self_zero s.words hs
  have hwfg : Wf (⟨diffWords s.words s.words⟩ : IntSet) := by
    intro w hw
    rw [hzero w hw]
    exact Nat.two_pow_pos 64
  have hwfc : Wf (⟨[]⟩ : IntSet) := by
    intro w hw
    cases hw
  have hhas : ∀ x, has (⟨diffWords s.words s.words⟩ : IntSet) x =
      has (⟨[]⟩ : IntSet) x := by
    intro x
    rw [has_false_of_all_zero hzero, has_false_of_all_zero (fun w hw => by cases hw)]
  rw [hgen, hclr]
  refine ⟨?_, ?_, ?_, ?_, hhas, ?_⟩
  · rw [isEmpty_iff_all_zero]
    intro w hw
    cases hw
  · rw [isEmpty_iff_all_zero]
    exact hzero
  · exact (equalsFn_true_iff hwfg hwfc).mpr hhas
  · rw [lenSet_eq_length_elems, lenSet_eq_length_elems, elems_eq_of_sameElems hhas]
  · exact elems_eq_of_sameElems hhas

/-- Witness for C7 at the concrete set `{3, 65}`. -/
theorem claim_C7_witness :
    Wf (addAll empty [3, 65]) ∧
      (isEmpty (differenceWith true (addAll empty [3, 65]) (addAll empty [3, 65])) = true ∧
        isEmpty (differenceWith false (addAll empty [3, 65]) (addAll empty [3, 65])) = true ∧
        equalsFn (differenceWith false (addAll empty [3, 65]) (addAll empty [3, 65]))
          (differenceWith true (addAll empty [3, 65]) (addAll empty [3, 65])) = true ∧
        lenSet (differenceWith false (addAll empty [3, 65]) (addAll empty [3, 65])) =
          lenSet (differenceWith true (addAll empty [3, 65]) (addAll empty [3, 65])) ∧
        (∀ x, has (differenceWith false (addAll empty [3, 65]) (addAll empty [3, 65])) x =
          has (differenceWith true (addAll empty [3, 65]) (addAll empty [3, 65])) x) ∧
        elems (differenceWith false (addAll empty [3, 65]) (addAll empty [3, 65])) =
          elems (differenceWith true (addAll empty [3, 65]) (addAll empty [3, 65]))) :=
  ⟨by decide, claim_C7 (addAll empty [3, 65]) (by decide)⟩

/-! ### Growth (C5) -/

theorem unionWords_length : ∀ (b a : List Nat),
    (unionWords a b).length = max a.length b.length := by
  intro b
  induction b with
  | nil =>
    intro a
    have hna : unionWords a [] = a := by cases a <;> rfl
    rw [hna]
    simp
  | cons tw tws ih =>
    intro a
    cases a with
    | nil =>
      have hshape : unionWords [] (tw :: tws) = tw :: unionWords [] tws := rfl
      rw [hshape, List.length_cons, ih []]
      simp
    | cons sw sws =>
      have hshape : unionWords (sw :: sws) (tw :: tws) =
          (sw ||| tw) :: unionWords sws tws := rfl
      rw [hshape, List.length_cons, ih sws]
      simp only [List.length_cons]
      omega

theorem unionWords_getD_right : ∀ (b a : List Nat) (i : Nat), a.length ≤ i →
    (unionWords a b).getD i 0 = b.getD i 0 := by
  intro b
  induction b with
  | nil =>
    intro a i hi
    have hna : unionWords a [] = a := by cases a <;> rfl
    rw [hna, getD_oob hi]
    cases i <;> rfl
  | cons tw tws ih =>
    intro a i hi
    cases a with
    | nil =>
      have hshape : unionWords [] (tw :: tws) = tw :: unionWords [] tws := rfl
      rw [hshape]
      cases i with
      | zero => rfl
      | succ k =>
        rw [List.getD_cons_succ, List.getD_cons_succ]
        exact ih [] k (by simp)
    | cons sw sws =>
      have hshape : unionWords (sw :: sws) (tw :: tws) =
          (sw ||| tw) :: unionWords sws tws := rfl
      rw [hshape]
      cases i with
      | zero => simp at hi
      | succ k =>
        rw [List.getD_cons_succ, List.getD_cons_succ]
        exact ih sws k (by simp at hi; omega)

/-- C5: `Add(x)` with word index `w ≥ len(words)` grows the word sequence
to exactly `w + 1` words and leaves the newly written top word non-zero
(growth never introduces trailing all-zero words); `UnionWith` grows the
receiver to `max` of the two lengths and copies `t`'s extra words
verbatim. -/
theorem claim_C5 (s t : IntSet) (x : Nat) :
    (s.words.length ≤ x >>> lg2WordSize →
      (add s x).2.words.length = x >>> lg2WordSize + 1 ∧
      (add s x).2.words.getD (x >>> lg2WordSize) 0 ≠ 0) ∧
    (unionWith s t).words.length = max s.words.length t.words.length ∧
    (∀ i, s.words.length ≤ i → (unionWith s t).words.getD i 0 = t.words.getD i 0) := by
  refine ⟨?_, unionWords_length t.words s.words,
    fun i hi => unionWords_getD_right t.words s.words i hi⟩
  intro hlen
  rw [shiftRight_lg2] at hlen ⊢
  have hcond : ¬(x / 64 < s.words.length ∧
      s.words.getD (x / 64) 0 &&& 1 <<< (x % 64) ≠ 0) := by
    intro hc
    omega
  rw [add_eq_branches, if_neg hcond]
  have hglen : (growTo s.words (x / 64)).length = x / 64 + 1 := by
    rw [length_growTo]
    omega
  refine ⟨by rw [List.length_set, hglen], ?_⟩
  rw [getD_set_self (by rw [hglen]; omega), getD_growTo, getD_oob hlen]
  rw [Nat.one_shiftLeft]
  simp only [Nat.zero_or]
  have := Nat.two_pow_pos (x % 64)
  omega

/-- Witness for C5: growing `{1}` by `Add(130)` and union of `{1}` with
`{200}`. -/
theorem claim_C5_witness :
    (addAll empty [1]).words.length ≤ 130 >>> lg2WordSize ∧
      ((add (addAll empty [1]) 130).2.words.length = 130 >>> lg2WordSize + 1 ∧
        (add (addAll empty [1]) 130).2.words.getD (130 >>> lg2WordSize) 0 ≠ 0) ∧
      (unionWith (addAll empty [1]) (addAll empty [200])).words.length =
        max (addAll empty [1]).words.length (addAll empty [200]).words.length ∧
      (∀ i, (addAll empty [1]).words.length ≤ i →
        (unionWith (addAll empty [1]) (addAll empty [200])).words.getD i 0 =
          (addAll empty [200]).words.getD i 0) :=
  ⟨by decide,
    (claim_C5 (addAll empty [1]) (addAll empty [200]) 130).1 (by decide),
    (claim_C5 (addAll empty [1]) (addAll empty [200]) 130).2.1,
    (claim_C5 (addAll empty [1]) (addAll empty [200]) 130).2.2⟩

/-! ### `SubsetOf` (C8) -/

theorem subsetWords_true_iff (tws : List Nat) : ∀ (ws : List Nat) (i : Nat),
    subsetWords tws ws i = true ↔
      ∀ k, k < ws.length → ws.getD k 0 ≠ 0 →
        (i + k < tws.length ∧ andNot (ws.getD k 0) (tws.getD (i + k) 0) = 0) := by
  intro ws
  induction ws with
  | nil =>
    intro i
    simp [subsetWords]
  | cons w ws ih =>
    intro i
    rw [subsetWords]
    by_cases hw : w = 0
    · subst hw
      rw [if_pos rfl, ih (i + 1)]
      constructor
      · intro hrec k hk hne
        match k with
        | 0 => exact absurd rfl hne
        | k + 1 =>
          have := hrec k (by simpa using hk) (by simpa using hne)
          refine ⟨by omega, ?_⟩
          rw [show i + (k + 1) = i + 1 + k by omega]
          simpa using this.2
      · intro hall k hk hne
        have := hall (k + 1) (by simpa using hk) (by simpa using hne)
        refine ⟨by omega, ?_⟩
        rw [show i + 1 + k = i + (k + 1) by omega]
        simpa using this.2
    · rw [if_neg hw]
      by_cases hlen : tws.length ≤ i
      · rw [if_pos hlen]
        constructor
        · intro hc; cases hc
        · intro hall
          have := hall 0 (by simp) (by simpa using hw)
          omega
      · rw [if_neg hlen]
        by_cases hne : andNot w (tws.getD i 0) ≠ 0
        · rw [if_pos hne]
          constructor
          · intro hc; cases hc
          · intro hall
            have := hall 0 (by simp) (by simpa using hw)
            simp only [Nat.add_zero, List.getD_cons_zero] at this
            exact absurd this.2 hne
        · rw [if_neg hne, ih (i + 1)]
          push_neg at hne
          constructor
          · intro hrec k hk hkne
            match k with
            | 0 => exact ⟨by omega, by simpa using hne⟩
            | k + 1 =>
              have := hrec k (by simpa using hk) (by simpa using hkne)
              refine ⟨by omega, ?_⟩
              rw [show i + (k + 1) = i + 1 + k by omega]
              simpa using this.2
          · intro hall k hk hkne
            have := hall (k + 1) (by simpa using hk) (by simpa using hkne)
            refine ⟨by omega, ?_⟩
            rw [show i + 1 + k = i + (k + 1) by omega]
            simpa using this.2

theorem subsetOf_true_iff {s t : IntSet} (hs : Wf s) :
    subsetOf s t = true ↔ ∀ y, has s y = true → has t y = true := by
  unfold subsetOf
  rw [subsetWords_true_iff]
  constructor
  · intro hall y hy
    rw [has_eq_testBit] at hy ⊢
    have hne : wordAt s (y / 64) ≠ 0 := by
      intro hz
      rw [hz, Nat.zero_testBit] at hy
      cases hy
    have hlt : y / 64 < s.words.length := by
      by_contra hc
      exact hne (wordAt_oob (Nat.le_of_not_lt hc))
    obtain ⟨-, hz⟩ := hall (y / 64) hlt hne
    simp only [Nat.zero_add] at hz
    have := congrArg (fun v => v.testBit (y % 64)) hz
    simp only [Nat.zero_testBit] at this
    rw [testBit_andNot_lt (by omega)] at this
    unfold wordAt at hy ⊢
    rw [hy] at this
    cases hb : (t.words.getD (y / 64) 0).testBit (y % 64)
    · rw [hb] at this
      cases this
    · rfl
  · intro hsub k hk hne
    have hwfw : s.words.getD k 0 < 2 ^ 64 := by
      rw [List.getD_eq_getElem?_getD, List.getElem?_eq_getElem hk, Option.getD_some]
      exact hs _ (List.getElem_mem hk)
    obtain ⟨hntz, hbit, -⟩ := ntz_spec hne hwfw
    have hhs : has s (64 * k + ntz (s.words.getD k 0)) = true := by
      rw [has_word_bit s hntz]
      exact hbit
    have hht := hsub _ hhs
    have hc := cond_of_has hht
    rw [show (64 * k + ntz (s.words.getD k 0)) / 64 = k by omega] at hc
    refine ⟨by omega, ?_⟩
    apply Nat.eq_of_testBit_eq
    intro j
    rw [Nat.zero_testBit]
    by_cases hj : j < 64
    · rw [testBit_andNot_lt hj]
      cases hbj : (s.words.getD k 0).testBit j
      · rfl
      · have hhsj : has s (64 * k + j) = true := by
          rw [has_word_bit s hj]
          exact hbj
        have hhtj := hsub _ (hhsj)
        rw [has_word_bit t hj] at hhtj
        unfold wordAt at hhtj
        simp only [Nat.zero_add, hhtj]
        rfl
    · unfold andNot
      rw [Nat.testBit_land, Nat.testBit_eq_false_of_lt
        (Nat.lt_of_lt_of_le hwfw (Nat.pow_le_pow_right (by omega) (by omega)))]
      rfl

/-- C8: `A.SubsetOf(B) && B.SubsetOf(A)` returns the same boolean as
`A.Equals(B)` (all three calls are pure reads in this embedding). -/
theorem claim_C8 (s t : IntSet) (hs : Wf s) (ht : Wf t) :
    (subsetOf s t && subsetOf t s) = equalsFn s t := by
  have h1 := subsetOf_true_iff (s := s) (t := t) hs
  have h2 := subsetOf_true_iff (s := t) (t := s) ht
  have h3 := equalsFn_true_iff hs ht
  have hiff : (subsetOf s t && subsetOf t s) = true ↔ equalsFn s t = true := by
    rw [Bool.and_eq_true, h1, h2, h3]
    constructor
    · rintro ⟨hst, hts⟩ y
      cases hys : has s y
      · cases hyt : has t y
        · rfl
        · exact ((hts y hyt).symm.trans hys).symm
      · exact (hst y hys).symm
    · intro hall
      exact ⟨fun y hy => (hall y).symm.trans hy, fun y hy => (hall y).trans hy⟩
  cases hb1 : (subsetOf s t && subsetOf t s)
  · cases hb2 : equalsFn s t
    · rfl
    · rw [← hiff.mpr hb2, hb1]
  · rw [hiff.mp hb1]

/-- Witness for C8 at `A = {1,2}` and `B` holding the same elements with a
trailing zero word (added and removed 100). -/
theorem claim_C8_witness :
    Wf (addAll empty [1, 2]) ∧ Wf (remove (addAll empty [1, 2, 100]) 100).2 ∧
      (subsetOf (addAll empty [1, 2]) (remove (addAll empty [1, 2, 100]) 100).2 &&
          subsetOf (remove (addAll empty [1, 2, 100]) 100).2 (addAll empty [1, 2])) =
        equalsFn (addAll empty [1, 2]) (remove (addAll empty [1, 2, 100]) 100).2 :=
  ⟨by decide, by decide,
    claim_C8 (addAll empty [1, 2]) (remove (addAll empty [1, 2, 100]) 100).2
      (by decide) (by decide)⟩

/-! ### `Max` and `BitString` (C6) -/

theorem bitLenScan_spec (w : Nat) : ∀ n,
    (bitLenScan w n = 0 ∧ ∀ k < n, w.testBit k = false) ∨
    (0 < bitLenScan w n ∧ bitLenScan w n ≤ n ∧
      w.testBit (bitLenScan w n - 1) = true ∧
      ∀ k, bitLenScan w n ≤ k → k < n → w.testBit k = false) := by
  intro n
  induction n with
  | zero =>
    left
    exact ⟨rfl, by omega⟩
  | succ n ih =>
    rw [bitLenScan]
    by_cases hb : w.testBit n
    · right
      rw [if_pos hb]
      exact ⟨by omega, by omega, by simpa using hb, fun k h1 h2 => by omega⟩
    · rw [if_neg hb]
      have hbf : w.testBit n = false := by
        cases hbb : w.testBit n
        · rfl
        · exact absurd hbb hb
      rcases ih with ⟨h1, h2⟩ | ⟨h1, h2, h3, h4⟩
      · left
        refine ⟨h1, fun k hk => ?_⟩
        by_cases hkn : k = n
        · subst hkn; exact hbf
        · exact h2 k (by omega)
      · right
        refine ⟨h1, by omega, h3, fun k hk1 hk2 => ?_⟩
        by_cases hkn : k = n
        · subst hkn; exact hbf
        · exact h4 k hk1 (by omega)

theorem bitLen_spec {w : Nat} (hw : w ≠ 0) (hlt : w < 2 ^ 64) :
    0 < bitLen w ∧ bitLen w ≤ 64 ∧ w.testBit (bitLen w - 1) = true ∧
      ∀ k, bitLen w ≤ k → w.testBit k = false := by
  have hws : wordSize = 64 := rfl
  unfold bitLen
  rw [hws]
  rcases bitLenScan_spec w 64 with ⟨h1, h2⟩ | ⟨h1, h2, h3, h4⟩
  · exfalso
    apply hw
    apply Nat.eq_of_testBit_eq
    intro j
    rw [Nat.zero_testBit]
    by_cases hj : j < 64
    · exact h2 j hj
    · exact Nat.testBit_eq_false_of_lt
        (Nat.lt_of_lt_of_le hlt (Nat.pow_le_pow_right (by omega) (by omega)))
  · refine ⟨h1, h2, h3, fun k hk1 => ?_⟩
    by_cases hk : k < 64
    · exact h4 k hk1 hk
    · exact Nat.testBit_eq_false_of_lt
        (Nat.lt_of_lt_of_le hlt (Nat.pow_le_pow_right (by omega) (by omega)))

theorem mem_elems_words {ws : List Nat} {y : Nat} :
    y ∈ elemsFrom ws 0 ↔
      y / 64 < ws.length ∧ (ws.getD (y / 64) 0).testBit (y % 64) = true := by
  rw [mem_elemsFrom]
  constructor
  · rintro ⟨-, h2⟩
    rw [Nat.sub_zero] at h2
    refine ⟨?_, h2⟩
    by_contra hc
    rw [getD_oob (by omega), Nat.zero_testBit] at h2
    cases h2
  · rintro ⟨h1, h2⟩
    exact ⟨by omega, by rw [Nat.sub_zero]; exact h2⟩

theorem maxAux_spec {ws : List Nat} (hwf : ∀ w ∈ ws, w < 2 ^ 64) :
    ∀ i, i ≤ ws.length →
      (maxAux ws i = MinInt ∧ ∀ y ∈ elemsFrom ws 0, ¬y < 64 * i) ∨
      (∃ mx : Nat, maxAux ws i = (mx : Int) ∧ mx < 64 * i ∧ mx ∈ elemsFrom ws 0 ∧
        ∀ y ∈ elemsFrom ws 0, y < 64 * i → y ≤ mx) := by
  intro i
  induction i with
  | zero =>
    intro _
    left
    exact ⟨rfl, fun y _ => by omega⟩
  | succ i ih =>
    intro hle
    have hws : wordSize = 64 := rfl
    rw [maxAux]
    by_cases hw : ws.getD i 0 = 0
    · rw [if_pos hw]
      have hband : ∀ y, y ∈ elemsFrom ws 0 → y < 64 * (i + 1) → y < 64 * i := by
        intro y hy hlt2
        by_contra hc
        have hdiv : y / 64 = i := by omega
        obtain ⟨-, h2⟩ := mem_elems_words.mp hy
        rw [hdiv, hw, Nat.zero_testBit] at h2
        cases h2
      rcases ih (by omega) with ⟨h1, h2⟩ | ⟨mx, h1, h2, h3, h4⟩
      · left
        exact ⟨h1, fun y hy hlt2 => h2 y hy (hband y hy hlt2)⟩
      · right
        exact ⟨mx, h1, by omega, h3, fun y hy hlt2 => h4 y hy (hband y hy hlt2)⟩
    · rw [if_neg hw]
      have hilt : i < ws.length := by
        by_contra hc
        exact hw (getD_oob (by omega))
      have hwflt : ws.getD i 0 < 2 ^ 64 := by
        rw [List.getD_eq_getElem?_getD, List.getElem?_eq_getElem hilt, Option.getD_some]
        exact hwf _ (List.getElem_mem hilt)
      obtain ⟨hb1, hb2, hb3, hb4⟩ := bitLen_spec hw hwflt
      have hnlz : nlz (ws.getD i 0) = 64 - bitLen (ws.getD i 0) := by
        unfold nlz
        rw [hws]
      right
      refine ⟨64 * i + (bitLen (ws.getD i 0) - 1), ?_, by omega, ?_, ?_⟩
      · rw [hws, hnlz]
        congr 1
        omega
      · rw [mem_elems_words]
        refine ⟨by omega, ?_⟩
        rw [show (64 * i + (bitLen (ws.getD i 0) - 1)) / 64 = i by omega,
          show (64 * i + (bitLen (ws.getD i 0) - 1)) % 64 = bitLen (ws.getD i 0) - 1
            by omega]
        exact hb3
      · intro y hy hlt2
        obtain ⟨-, h2⟩ := mem_elems_words.mp hy
        by_cases hdiv : y / 64 = i
        · rw [hdiv] at h2
          have hmod : y % 64 < bitLen (ws.getD i 0) := by
            by_contra hc
            rw [hb4 (y % 64) (by omega)] at h2
            cases h2
          omega
        · have : y / 64 < i := by omega
          omega

theorem maxE_spec {s : IntSet} (hs : Wf s) (hne : isEmpty s = false) :
    ∃ mx : Nat, maxE s = (mx : Int) ∧ has s mx = true ∧
      ∀ y, has s y = true → y ≤ mx := by
  have hbound : ∀ y, y ∈ elemsFrom s.words 0 → y < 64 * s.words.length := by
    intro y hy
    obtain ⟨h1, -⟩ := mem_elems_words.mp hy
    omega
  rcases maxAux_spec hs s.words.length (Nat.le_refl _) with ⟨h1, h2⟩ | ⟨mx, h1, h2, h3, h4⟩
  · exfalso
    have hnenil := elems_ne_nil hs hne
    obtain ⟨hd, tl2, hl⟩ := List.exists_cons_of_ne_nil hnenil
    have hdm : hd ∈ elemsFrom s.words 0 := by
      show hd ∈ elems s
      rw [hl]
      exact List.mem_cons_self _ _
    exact h2 hd hdm (hbound hd hdm)
  · refine ⟨mx, h1, mem_elems.mp h3, fun y hy => ?_⟩
    have hym : y ∈ elemsFrom s.words 0 := mem_elems.mpr hy
    exact h4 y hym (hbound y hym)

theorem foldl_set_length {α : Type} (p : Nat → Nat) (c : α) :
    ∀ (l : List Nat) (b : List α),
      (l.foldl (fun b x => b.set (p x) c) b).length = b.length := by
  intro l
  induction l with
  | nil => intro b; rfl
  | cons a l ih =>
    intro b
    rw [List.foldl_cons, ih, List.length_set]

theorem foldl_set_getD {α : Type} (p : Nat → Nat) (c d : α) :
    ∀ (l : List Nat) (b : List α), (∀ x ∈ l, p x < b.length) → ∀ k,
      (l.foldl (fun b x => b.set (p x) c) b).getD k d =
        if ∃ x ∈ l, p x = k then c else b.getD k d := by
  intro l
  induction l with
  | nil =>
    intro b _ k
    simp
  | cons a l ih =>
    intro b hb k
    rw [List.foldl_cons, ih (b.set (p a) c)
      (fun x hx => by rw [List.length_set]; exact hb x (List.mem_cons_of_mem a hx)) k]
    by_cases hex : ∃ x ∈ l, p x = k
    · obtain ⟨x, hx1, hx2⟩ := hex
      rw [if_pos ⟨x, hx1, hx2⟩, if_pos ⟨x, List.mem_cons_of_mem a hx1, hx2⟩]
    · rw [if_neg hex]
      by_cases hak : p a = k
      · rw [if_pos ⟨a, List.mem_cons_self a l, hak⟩, ← hak,
          getD_set_self (hb a (List.mem_cons_self a l)) c]
      · have hnone : ¬∃ x ∈ a :: l, p x = k := by
          rintro ⟨x, hx1, hx2⟩
          rcases List.mem_cons.mp hx1 with hx1 | hx1
          · exact hak (hx1 ▸ hx2)
          · exact hex ⟨x, hx1, hx2⟩
        rw [if_neg hnone, getD_set_ne hak c]

theorem getD_replicate {α : Type} {n : Nat} (a d : α) {k : Nat} (hk : k < n) :
    (List.replicate n a).getD k d = a := by
  rw [List.getD_eq_getElem?_getD, List.getElem?_replicate, if_pos hk]
  rfl

theorem bitString_spec {s : IntSet} (hs : Wf s) (hne : isEmpty s = false) :
    (bitString s).length = (maxE s).toNat + 1 ∧
      ∀ k, k < (maxE s).toNat + 1 →
        (bitString s).getD k '0' =
          if has s ((maxE s).toNat - k) = true then '1' else '0' := by
  obtain ⟨mx, hmx, hhas, hmax⟩ := maxE_spec hs hne
  have htn : (maxE s).toNat = mx := by
    rw [hmx]
    rfl
  have hbs : bitString s =
      (elems s).foldl (fun b x => b.set ((maxE s).toNat + 1 - x - 1) '1')
        (List.replicate ((maxE s).toNat + 1) '0') := by
    unfold bitString
    rw [if_neg (by simp [hne])]
  have hbnd : ∀ x ∈ elems s, (maxE s).toNat + 1 - x - 1 <
      (List.replicate ((maxE s).toNat + 1) '0').length := by
    intro x hx
    rw [List.length_replicate, htn]
    have := hmax x (mem_elems.mp hx)
    omega
  constructor
  · rw [hbs, foldl_set_length, List.length_replicate]
  · intro k hk
    rw [hbs, foldl_set_getD _ _ _ _ _ hbnd k]
    rw [htn] at hk ⊢
    by_cases hhk : has s (mx - k) = true
    · rw [if_pos hhk]
      have hex : ∃ x ∈ elems s, mx + 1 - x - 1 = k := by
        refine ⟨mx - k, mem_elems.mpr hhk, ?_⟩
        have := hmax (mx - k) hhk
        omega
      rw [if_pos (by simpa [htn] using hex)]
    · rw [if_neg hhk]
      have hnex : ¬∃ x ∈ elems s, mx + 1 - x - 1 = k := by
        rintro ⟨x, hx1, hx2⟩
        have hxle := hmax x (mem_elems.mp hx1)
        have hxeq : x = mx - k := by omega
        rw [← hxeq] at hhk
        exact hhk (mem_elems.mp hx1)
      rw [if_neg (by simpa [htn] using hnex), getD_replicate _ _ hk]

/-- C6: `BitString()` renders most-significant bit first with length
exactly `Max()+1` for a non-empty set (character `k` is `'1'` exactly when
`Max()-k` is present, so the leftmost character corresponds to the highest
element); the empty set renders as `"0"`; `{0,4,5}` renders as `"110001"`
and `{0}` as `"1"`. -/
theorem claim_C6 (s : IntSet) (hs : Wf s) :
    (isEmpty s = true → bitString s = ['0']) ∧
      (isEmpty s = false →
        (bitString s).length = (maxE s).toNat + 1 ∧
        ∀ k, k < (maxE s).toNat + 1 →
          (bitString s).getD k '0' =
            if has s ((maxE s).toNat - k) = true then '1' else '0') ∧
      bitString (addAll empty [0, 4, 5]) = ['1', '1', '0', '0', '0', '1'] ∧
      bitString (addAll empty [0]) = ['1'] ∧
      bitString empty = ['0'] := by
  refine ⟨?_, fun hne => bitString_spec hs hne, by decide, by decide, by decide⟩
  intro h
  unfold bitString
  rw [if_pos h]

/-- Witness for C6 at the concrete set `{0, 4, 5}`. -/
theorem claim_C6_witness :
    Wf (addAll empty [0, 4, 5]) ∧
      ((isEmpty (addAll empty [0, 4, 5]) = true →
          bitString (addAll empty [0, 4, 5]) = ['0']) ∧
        (isEmpty (addAll empty [0, 4, 5]) = false →
          (bitString (addAll empty [0, 4, 5])).length =
            (maxE (addAll empty [0, 4, 5])).toNat + 1 ∧
          ∀ k, k < (maxE (addAll empty [0, 4, 5])).toNat + 1 →
            (bitString (addAll empty [0, 4, 5])).getD k '0' =
              if has (addAll empty [0, 4, 5])
                  ((maxE (addAll empty [0, 4, 5])).toNat - k) = true then '1'
              else '0') ∧
        bitString (addAll empty [0, 4, 5]) = ['1', '1', '0', '0', '0', '1'] ∧
        bitString (addAll empty [0]) = ['1'] ∧
        bitString empty = ['0']) :=
  ⟨by decide, claim_C6 (addAll empty [0, 4, 5]) (by decide)⟩

/-! ### `LowerBound` (C4) -/

theorem scanBits_some_spec (word : Nat) : ∀ (fuel j j' : Nat),
    scanBits word fuel j = some j' →
      j ≤ j' ∧ j' < j + fuel ∧ word.testBit j' = true ∧
      ∀ k, j ≤ k → k < j' → word.testBit k = false := by
  intro fuel
  induction fuel with
  | zero =>
    intro j j' h
    cases h
  | succ fuel ih =>
    intro j j' h
    rw [scanBits] at h
    by_cases hb : word.testBit j
    · rw [if_pos (by rw [bne_iff_ne]; exact (land_mask_ne_zero word j).mpr hb)] at h
      cases h
      exact ⟨Nat.le_refl j, by omega, hb, fun k h1 h2 => by omega⟩
    · have hbf : word.testBit j = false := by
        cases hbb : word.testBit j
        · rfl
        · exact absurd hbb hb
      have hcond : (word &&& 1 <<< j != 0) = false := by
        rw [bne_eq_false_iff_eq]
        by_contra hc
        rw [(land_mask_ne_zero word j).mp hc] at hbf
        cases hbf
      rw [if_neg (by rw [hcond]; exact Bool.false_ne_true)] at h
      obtain ⟨g1, g2, g3, g4⟩ := ih (j + 1) j' h
      refine ⟨by omega, by omega, g3, fun k hk1 hk2 => ?_⟩
      by_cases hkj : k = j
      · subst hkj; exact hbf
      · exact g4 k (by omega) hk2

theorem scanBits_none_spec (word : Nat) : ∀ (fuel j : Nat),
    scanBits word fuel j = none →
      ∀ k, j ≤ k → k < j + fuel → word.testBit k = false := by
  intro fuel
  induction fuel with
  | zero =>
    intro j _ k h1 h2
    omega
  | succ fuel ih =>
    intro j h k h1 h2
    rw [scanBits] at h
    by_cases hb : word.testBit j
    · rw [if_pos (by rw [bne_iff_ne]; exact (land_mask_ne_zero word j).mpr hb)] at h
      cases h
    · have hbf : word.testBit j = false := by
        cases hbb : word.testBit j
        · rfl
        · exact absurd hbb hb
      have hcond : (word &&& 1 <<< j != 0) = false := by
        rw [bne_eq_false_iff_eq]
        by_contra hc
        rw [(land_mask_ne_zero word j).mp hc] at hbf
        cases hbf
      rw [if_neg (by rw [hcond]; exact Bool.false_ne_true)] at h
      by_cases hkj : k = j
      · subst hkj; exact hbf
      · exact ih (j + 1) h k (by omega) (by omega)

theorem mem_elemsFrom_cons {word : Nat} {ws : List Nat} {i y : Nat} :
    y ∈ elemsFrom (word :: ws) i ↔
      ((y / 64 = i ∧ word.testBit (y % 64) = true) ∨ y ∈ elemsFrom ws (i + 1)) := by
  rw [mem_elemsFrom, mem_elemsFrom]
  constructor
  · rintro ⟨h1, h2⟩
    by_cases hd : y / 64 = i
    · left
      rw [hd, show i - i = 0 by omega, List.getD_cons_zero] at h2
      exact ⟨hd, h2⟩
    · right
      rw [show y / 64 - i = (y / 64 - i - 1) + 1 by omega, List.getD_cons_succ] at h2
      exact ⟨by omega, by rw [show y / 64 - (i + 1) = y / 64 - i - 1 by omega]; exact h2⟩
  · rintro (⟨hd, hbit⟩ | ⟨h1, h2⟩)
    · exact ⟨by omega, by rw [hd, show i - i = 0 by omega, List.getD_cons_zero]; exact hbit⟩
    · refine ⟨by omega, ?_⟩
      rw [show y / 64 - i = (y / 64 - (i + 1)) + 1 by omega, List.getD_cons_succ]
      exact h2

theorem lbWords_spec {x w bitp : Nat} (hx : x = 64 * w + bitp) (hb : bitp < 64) :
    ∀ (ws : List Nat), (∀ u ∈ ws, u < 2 ^ 64) → ∀ i,
      ((∃ y, y ∈ elemsFrom ws i ∧ x ≤ y) →
        (lbWords w bitp ws i ∈ elemsFrom ws i ∧ x ≤ lbWords w bitp ws i ∧
          ∀ y, y ∈ elemsFrom ws i → x ≤ y → lbWords w bitp ws i ≤ y)) ∧
      ((¬∃ y, y ∈ elemsFrom ws i ∧ x ≤ y) → lbWords w bitp ws i = MaxInt) := by
  intro ws
  induction ws with
  | nil =>
    intro _ i
    constructor
    · rintro ⟨y, hy, -⟩
      cases hy
    · intro _
      rfl
  | cons word ws ih =>
    intro hwf i
    have hwfw : word < 2 ^ 64 := hwf _ (List.mem_cons_self _ _)
    have hwfs : ∀ u ∈ ws, u < 2 ^ 64 := fun u hu => hwf u (List.mem_cons_of_mem _ hu)
    have hws : wordSize = 64 := rfl
    rw [lbWords]
    by_cases hiw : i < w
    · rw [if_pos hiw]
      have htrans : ∀ y, y ∈ elemsFrom (word :: ws) i → x ≤ y →
          y ∈ elemsFrom ws (i + 1) := by
        intro y hy hxy
        rcases mem_elemsFrom_cons.mp hy with ⟨hd, -⟩ | h
        · exfalso
          omega
        · exact h
      constructor
      · rintro ⟨y, hy, hxy⟩
        obtain ⟨g1, g2, g3⟩ := (ih hwfs (i + 1)).1 ⟨y, htrans y hy hxy, hxy⟩
        exact ⟨mem_elemsFrom_cons.mpr (Or.inr g1), g2,
          fun z hz hxz => g3 z (htrans z hz hxz) hxz⟩
      · intro hno
        apply (ih hwfs (i + 1)).2
        rintro ⟨y, hy, hxy⟩
        exact hno ⟨y, mem_elemsFrom_cons.mpr (Or.inr hy), hxy⟩
    · rw [if_neg hiw]
      by_cases hz : word = 0
      · rw [if_pos hz]
        have htrans : ∀ y, y ∈ elemsFrom (word :: ws) i → y ∈ elemsFrom ws (i + 1) := by
          intro y hy
          rcases mem_elemsFrom_cons.mp hy with ⟨-, hbit⟩ | h
          · rw [hz, Nat.zero_testBit] at hbit
            cases hbit
          · exact h
        constructor
        · rintro ⟨y, hy, hxy⟩
          obtain ⟨g1, g2, g3⟩ := (ih hwfs (i + 1)).1 ⟨y, htrans y hy, hxy⟩
          exact ⟨mem_elemsFrom_cons.mpr (Or.inr g1), g2,
            fun z hz2 hxz => g3 z (htrans z hz2) hxz⟩
        · intro hno
          apply (ih hwfs (i + 1)).2
          rintro ⟨y, hy, hxy⟩
          exact hno ⟨y, mem_elemsFrom_cons.mpr (Or.inr hy), hxy⟩
      · rw [if_neg hz]
        obtain ⟨htz, hbit, hmintz⟩ := ntz_spec hz hwfw
        have hmem0 : wordSize * i + ntz word ∈ elemsFrom (word :: ws) i := by
          rw [hws]
          apply mem_elemsFrom_cons.mpr
          left
          rw [show (64 * i + ntz word) / 64 = i by omega,
            show (64 * i + ntz word) % 64 = ntz word by omega]
          exact ⟨rfl, hbit⟩
        have hminhead : ∀ y, y / 64 = i → word.testBit (y % 64) = true →
            wordSize * i + ntz word ≤ y := by
          intro y hd hbity
          rw [hws]
          have : ¬y % 64 < ntz word := by
            intro hc
            rw [hmintz _ hc] at hbity
            cases hbity
          omega
        have hmintail : ∀ y, y ∈ elemsFrom ws (i + 1) →
            wordSize * i + ntz word ≤ y := by
          intro y hy
          have := elemsFrom_lower hy
          rw [hws]
          omega
        by_cases hwi : w < i
        · rw [if_pos hwi]
          have hxle : x ≤ wordSize * i + ntz word := by
            rw [hws]
            omega
          constructor
          · intro _
            refine ⟨hmem0, hxle, fun y hy hxy => ?_⟩
            rcases mem_elemsFrom_cons.mp hy with ⟨hd, hbity⟩ | h
            · exact hminhead y hd hbity
            · exact hmintail y h
          · intro hno
            exact absurd ⟨_, hmem0, hxle⟩ hno
        · rw [if_neg hwi]
          have hieq : i = w := by omega
          by_cases hbtz : bitp ≤ ntz word
          · rw [if_pos hbtz]
            have hxle : x ≤ wordSize * i + ntz word := by
              rw [hws]
              omega
            constructor
            · intro _
              refine ⟨hmem0, hxle, fun y hy hxy => ?_⟩
              rcases mem_elemsFrom_cons.mp hy with ⟨hd, hbity⟩ | h
              · exact hminhead y hd hbity
              · exact hmintail y h
            · intro hno
              exact absurd ⟨_, hmem0, hxle⟩ hno
          · rw [if_neg hbtz]
            cases hscan : scanBits word (wordSize - bitp) bitp with
            | some j =>
              obtain ⟨g1, g2, g3, g4⟩ := scanBits_some_spec word _ bitp j hscan
              have hred : (match (some j : Option Nat) with
                  | some j => wordSize * i + j
                  | none => lbWords w bitp ws (i + 1)) = wordSize * i + j := rfl
              rw [hred]
              have hj64 : j < 64 := by
                rw [hws] at g2
                omega
              have hmemj : wordSize * i + j ∈ elemsFrom (word :: ws) i := by
                rw [hws]
                apply mem_elemsFrom_cons.mpr
                left
                rw [show (64 * i + j) / 64 = i by omega,
                  show (64 * i + j) % 64 = j by omega]
                exact ⟨rfl, g3⟩
              have hxlej : x ≤ wordSize * i + j := by
                rw [hws]
                omega
              constructor
              · intro _
                refine ⟨hmemj, hxlej, fun y hy hxy => ?_⟩
                rcases mem_elemsFrom_cons.mp hy with ⟨hd, hbity⟩ | h
                · have hbpy : bitp ≤ y % 64 := by omega
                  have : ¬y % 64 < j := by
                    intro hc
                    rw [g4 _ hbpy hc] at hbity
                    cases hbity
                  rw [hws]
                  omega
                · have := elemsFrom_lower h
                  rw [hws]
                  omega
              · intro hno
                exact absurd ⟨_, hmemj, hxlej⟩ hno
            | none =>
              have hnone := scanBits_none_spec word _ bitp hscan
              have hred : (match (none : Option Nat) with
                  | some j => wordSize * i + j
                  | none => lbWords w bitp ws (i + 1)) = lbWords w bitp ws (i + 1) := rfl
              rw [hred]
              have hnohead : ∀ y, y ∈ elemsFrom (word :: ws) i → x ≤ y →
                  y ∈ elemsFrom ws (i + 1) := by
                intro y hy hxy
                rcases mem_elemsFrom_cons.mp hy with ⟨hd, hbity⟩ | h
                · exfalso
                  have hbpy : bitp ≤ y % 64 := by omega
                  rw [hnone (y % 64) hbpy (by rw [hws]; omega)] at hbity
                  cases hbity
                · exact h
              constructor
              · rintro ⟨y, hy, hxy⟩
                obtain ⟨g1, g2, g3⟩ := (ih hwfs (i + 1)).1 ⟨y, hnohead y hy hxy, hxy⟩
                exact ⟨mem_elemsFrom_cons.mpr (Or.inr g1), g2,
                  fun z hz2 hxz => g3 z (hnohead z hz2 hxz) hxz⟩
              · intro hno
                apply (ih hwfs (i + 1)).2
                rintro ⟨y, hy, hxy⟩
                exact hno ⟨y, mem_elemsFrom_cons.mpr (Or.inr hy), hxy⟩

/-- C4: `LowerBound(x)` returns the smallest present element `≥ x`, and
the sentinel `MaxInt` when no such element exists — the same answer as
filtering the elements `≥ x` and taking the minimum; on `{1,9,144}`:
`LowerBound(1) = 1`, `LowerBound(8) = 9`, `LowerBound(145) = MaxInt`. -/
theorem claim_C4 (s : IntSet) (x : Nat) (hs : Wf s) :
    ((∃ y, has s y = true ∧ x ≤ y) →
      (has s (lowerBound s x) = true ∧ x ≤ lowerBound s x ∧
        ∀ y, has s y = true → x ≤ y → lowerBound s x ≤ y)) ∧
    ((¬∃ y, has s y = true ∧ x ≤ y) → lowerBound s x = MaxInt) ∧
    lowerBound (addAll empty [1, 9, 144]) 1 = 1 ∧
    lowerBound (addAll empty [1, 9, 144]) 8 = 9 ∧
    lowerBound (addAll empty [1, 9, 144]) 145 = MaxInt := by
  have hlb : lowerBound s x = lbWords (x / 64) (x % 64) s.words 0 := by
    unfold lowerBound wordBit
    rw [shiftRight_lg2, and_bitmask]
  have hx : x = 64 * (x / 64) + x % 64 := by omega
  have hbp : x % 64 < 64 := by omega
  have hspec := lbWords_spec hx hbp s.words hs 0
  have hel : ∀ y : Nat, y ∈ elemsFrom s.words 0 ↔ has s y = true := fun y => mem_elems
  refine ⟨?_, ?_, by decide, by decide, by decide⟩
  · rintro ⟨y, hy, hxy⟩
    obtain ⟨g1, g2, g3⟩ := hspec.1 ⟨y, (hel y).mpr hy, hxy⟩
    rw [hlb]
    exact ⟨(hel _).mp g1, g2, fun z hz hxz => g3 z ((hel z).mpr hz) hxz⟩
  · intro hno
    rw [hlb]
    apply hspec.2
    rintro ⟨y, hy, hxy⟩
    exact hno ⟨y, (hel y).mp hy, hxy⟩

/-- Witness for C4 at the concrete set `{1, 9, 144}` with `x = 8`. -/
theorem claim_C4_witness :
    Wf (addAll empty [1, 9, 144]) ∧
      (((∃ y, has (addAll empty [1, 9, 144]) y = true ∧ 8 ≤ y) →
          (has (addAll empty [1, 9, 144]) (lowerBound (addAll empty [1, 9, 144]) 8) =
              true ∧
            8 ≤ lowerBound (addAll empty [1, 9, 144]) 8 ∧
            ∀ y, has (addAll empty [1, 9, 144]) y = true → 8 ≤ y →
              lowerBound (addAll empty [1, 9, 144]) 8 ≤ y)) ∧
        ((¬∃ y, has (addAll empty [1, 9, 144]) y = true ∧ 8 ≤ y) →
          lowerBound (addAll empty [1, 9, 144]) 8 = MaxInt) ∧
        lowerBound (addAll empty [1, 9, 144]) 1 = 1 ∧
        lowerBound (addAll empty [1, 9, 144]) 8 = 9 ∧
        lowerBound (addAll empty [1, 9, 144]) 145 = MaxInt) :=
  ⟨by decide, claim_C4 (addAll empty [1, 9, 144]) 8 (by decide)⟩

end Intset
